import Mathlib

/-!
Shallow embedding of the pairs-trading statistical-arbitrage core
(`src/signals.py` and `src/backtest.py`).

Numbers are rationals.  A float NaN — and, following the repository's own
error-handling design, any non-finite intermediate value — is modelled as
`none` in an `Option ℚ`; a pandas `Series` is a `List (Option ℚ)`, and a
series that is everywhere defined is a `List ℚ`.  Library functions with
no rational counterpart (`np.log`, the square root inside pandas' rolling
`std`, and statsmodels' `coint` test) are passed in as explicit function
parameters, so every theorem below holds for every interpretation of
those functions.
-/

namespace CryptoStatArb

/-- A pandas series of floats: `none` is NaN. -/
abbrev OSeries := List (Option ℚ)

/-- Elementwise series addition: NaN propagates. -/
def oadd : Option ℚ → Option ℚ → Option ℚ
  | some a, some b => some (a + b)
  | _, _ => none

/-- Elementwise series subtraction: NaN propagates. -/
def osub : Option ℚ → Option ℚ → Option ℚ
  | some a, some b => some (a - b)
  | _, _ => none

/-- Elementwise series multiplication: NaN propagates. -/
def omul : Option ℚ → Option ℚ → Option ℚ
  | some a, some b => some (a * b)
  | _, _ => none

/-- Elementwise series division.  A zero denominator gives a non-finite
float (`±inf` or NaN), which this code base always converts to / treats
as missing, so it is modelled as `none` directly. -/
def odiv : Option ℚ → Option ℚ → Option ℚ
  | some a, some b => if b = 0 then none else some (a / b)
  | _, _ => none

/-- Python / numpy `abs` on a float (kernel-reducible form of `|·|`). -/
def fabs (v : ℚ) : ℚ := if v < 0 then -v else v

/-- Binary maximum (kernel-reducible form of `max`). -/
def maxQ (a b : ℚ) : ℚ := if a < b then b else a

/-- Binary minimum (kernel-reducible form of `min`). -/
def minQ (a b : ℚ) : ℚ := if a < b then a else b

/-- `Series.fillna(c)`. -/
def fillna (c : ℚ) (s : OSeries) : List ℚ := s.map (fun v => v.getD c)

/-- `Series.shift(1)`: one-bar lag, NaN in the first slot. -/
def shift1 (s : OSeries) : OSeries := (none :: s).take s.length

/-- `Series.diff()`: first difference, NaN in the first slot. -/
def diffS (s : OSeries) : OSeries := List.zipWith osub s (shift1 s)

/-- Scan implementing pandas `ffill`: carry the last defined value. -/
def ffillGo : Option ℚ → OSeries → OSeries
  | _, [] => []
  | carry, none :: rest => carry :: ffillGo carry rest
  | _, some v :: rest => some v :: ffillGo (some v) rest

/-- `Series.ffill()`: propagate the last defined value forward. -/
def ffill (s : OSeries) : OSeries := ffillGo none s

/-- `Series.clip(lower = lo, upper = hi)`: the lower bound is applied
first, then the upper bound. -/
def clip (lo hi v : ℚ) : ℚ := minQ (maxQ v lo) hi

/-- Arithmetic mean of a window. -/
def mean (l : List ℚ) : ℚ := l.sum / l.length

/-- Population variance (`ddof = 0`). -/
def varP (l : List ℚ) : ℚ := ((l.map (fun v => (v - mean l) ^ 2)).sum) / l.length

/-- Sample variance (`ddof = 1`, the pandas rolling default): NaN below
two observations. -/
def varS (l : List ℚ) : Option ℚ :=
  if l.length < 2 then none
  else some (((l.map (fun v => (v - mean l) ^ 2)).sum) / ((l.length : ℚ) - 1))

/-- Sample covariance (`ddof = 1`) of a window of pairs. -/
def covS (l : List (ℚ × ℚ)) : Option ℚ :=
  if l.length < 2 then none
  else some
    (((l.map (fun p =>
        (p.1 - mean (l.map Prod.fst)) * (p.2 - mean (l.map Prod.snd)))).sum) /
      ((l.length : ℚ) - 1))

/-- The trailing window of length `w` ending at index `i` (shorter while
`i + 1 < w`). -/
def window (w i : ℕ) (s : List α) : List α := (s.take (i + 1)).drop (i + 1 - w)

/-- Pandas `rolling(w)` over a possibly-NaN series with the default
`min_periods = w`: the value at `i` is defined only when the trailing
window holds `w` observations, none of them NaN. -/
def rollingO (w : ℕ) (f : List ℚ → Option ℚ) (s : OSeries) : OSeries :=
  (List.range s.length).map fun i =>
    let win := window w i s
    if win.length = w ∧ win.all Option.isSome then f win.reduceOption else none

/-- Pandas `rolling(w)` over an everywhere-defined series. -/
def rollingT (w : ℕ) (f : List ℚ → Option ℚ) (s : List ℚ) : OSeries :=
  (List.range s.length).map fun i =>
    let win := window w i s
    if win.length = w then f win else none

/-- `y.rolling(w).cov(x)` on everywhere-defined series (`ddof = 1`). -/
def rollingCovS (w : ℕ) (y x : List ℚ) : OSeries :=
  (List.range (y.zip x).length).map fun i =>
    let win := window w i (y.zip x)
    if win.length = w then covS win else none

/-- `signals.rolling_ols_beta`: rolling `Cov(y, x) / Var(x)`.  A zero
rolling variance makes the ratio non-finite, hence missing. -/
def rolling_ols_beta (y x : List ℚ) (w : ℕ) : OSeries :=
  List.zipWith odiv (rollingCovS w y x) (rollingT w varS x)

/-- `signals.compute_vol_scale`, with the square root inside pandas'
rolling `std(ddof = 0)` passed in as `sqrt`: the scale is
`target / rolling_std(diff(spread))`, with non-finite values replaced by
zero and the result clipped to `[lo, hi]`. -/
def compute_vol_scale (sqrt : ℚ → ℚ) (spread : OSeries) (w : ℕ)
    (target lo hi : ℚ) : List ℚ :=
  let spread_d := diffS spread
  let vol := rollingO w (fun l => some (sqrt (varP l))) spread_d
  let scale := vol.map (fun v => odiv (some target) v)
  (fillna 0 scale).map (clip lo hi)

/-- `signals.rolling_coint_pvalue`, with the statsmodels Engle-Granger
test — wrapped in its try/except guard, hence `Option`-valued — passed in
as `cointTest`. -/
def rolling_coint_pvalue (cointTest : List ℚ → List ℚ → Option ℚ)
    (log_y log_x : List ℚ) (w : ℕ) : OSeries :=
  (List.range log_y.length).map fun i =>
    if w ≤ i + 1 then cointTest (window w i log_y) (window w i log_x) else none

/-- The pandas comparison `pval < p_threshold`: a NaN p-value compares as
`False`, i.e. not tradable. -/
def tradableFlag (thr : ℚ) : Option ℚ → Bool
  | some p => decide (p < thr)
  | none => false

/-- `signals.apply_coint_regime_filter`:
`pos.where(pvals < p_threshold, 0.0)`. -/
def apply_coint_regime_filter (pos pvals : OSeries) (thr : ℚ) : OSeries :=
  List.zipWith (fun p pv => if tradableFlag thr pv then p else some 0) pos pvals

/-- The derived per-bar feature columns of `signals.compute_spread_and_z`. -/
structure FeatFrame where
  ly : List ℚ
  lx : List ℚ
  beta : OSeries
  spread : OSeries
  z : OSeries
  coint_p : OSeries
  is_coint : List Bool
  vol_scale : List ℚ

/-- `signals.compute_spread_and_z` (with `np.log`, the rolling-std square
root and the external cointegration test passed in as functions). -/
def compute_spread_and_z (sqrt log : ℚ → ℚ)
    (cointTest : List ℚ → List ℚ → Option ℚ) (y x : List ℚ)
    (lookback_beta lookback_z lookback_coint : ℕ) (coint_p_threshold : ℚ)
    (lookback_spread_vol : ℕ)
    (target_spread_vol min_scale max_scale : ℚ) : FeatFrame :=
  let ly := y.map log
  let lx := x.map log
  let beta := rolling_ols_beta ly lx lookback_beta
  let spread := List.zipWith osub (ly.map some) (List.zipWith omul beta (lx.map some))
  let m := rollingO lookback_z (fun l => some (mean l)) spread
  let s := rollingO lookback_z (fun l => some (sqrt (varP l))) spread
  let z := List.zipWith odiv (List.zipWith osub spread m) s
  let coint_p := rolling_coint_pvalue cointTest ly lx lookback_coint
  let is_coint := coint_p.map (tradableFlag coint_p_threshold)
  let vol_scale :=
    compute_vol_scale sqrt spread lookback_spread_vol target_spread_vol min_scale max_scale
  ⟨ly, lx, beta, spread, z, coint_p, is_coint, vol_scale⟩

/-- The spread column of `compute_spread_and_z`:
`spread = ly - beta * lx`. -/
def spreadSeries (log : ℚ → ℚ) (y x : List ℚ) (lookback_beta : ℕ) : OSeries :=
  List.zipWith osub ((y.map log).map some)
    (List.zipWith omul (rolling_ols_beta (y.map log) (x.map log) lookback_beta)
      ((x.map log).map some))

/-- The z-score column of `compute_spread_and_z`:
`z = (spread - rolling_mean) / rolling_std(ddof = 0)`. -/
def zSeries (sqrt log : ℚ → ℚ) (y x : List ℚ) (lookback_beta lookback_z : ℕ) :
    OSeries :=
  List.zipWith odiv
    (List.zipWith osub (spreadSeries log y x lookback_beta)
      (rollingO lookback_z (fun l => some (mean l)) (spreadSeries log y x lookback_beta)))
    (rollingO lookback_z (fun l => some (sqrt (varP l))) (spreadSeries log y x lookback_beta))

/-- One step of the state machine in `signals.generate_positions`: NaN
forces flat and resets the state; from flat, `z ≥ entry_z` opens a short
spread (`-1`) and `z ≤ -entry_z` a long spread (`+1`); from a held
position, `|z| ≤ exit_z` closes it, else it is kept.  The emitted
position is the updated state. -/
def posStep (entry_z exit_z state : ℚ) : Option ℚ → ℚ
  | none => 0
  | some v =>
    if state = 0 then
      if entry_z ≤ v then -1
      else if v ≤ -entry_z then 1
      else 0
    else if fabs v ≤ exit_z then 0 else state

/-- The fold of `posStep` over the z-score series. -/
def posGo (entry_z exit_z : ℚ) : ℚ → OSeries → List ℚ
  | _, [] => []
  | state, v :: rest =>
    let state1 := posStep entry_z exit_z state v
    state1 :: posGo entry_z exit_z state1 rest

/-- `signals.generate_positions`. -/
def generate_positions (z : OSeries) (entry_z exit_z : ℚ) : List ℚ :=
  posGo entry_z exit_z 0 z

/-- The holding-period-cap loop of `backtest.backtest_pairs`: `hold`
counts consecutive bars in which the emitted position repeats the
previous emitted value `prev`; once it would exceed the cap the bar is
forced to zero and the counter resets. -/
def holdCapGo (max_holding_bars : ℕ) : ℕ → ℚ → List ℚ → List ℚ
  | _, _, [] => []
  | hold, prev, v :: rest =>
    if v = 0 then 0 :: holdCapGo max_holding_bars 0 0 rest
    else
      let hold1 := if prev = v then hold + 1 else 1
      if max_holding_bars < hold1 then 0 :: holdCapGo max_holding_bars 0 0 rest
      else v :: holdCapGo max_holding_bars hold1 v rest

/-- The holding-capped position series (loop entered with
`hold = 0`, `prev = 0.0`). -/
def holdCap (max_holding_bars : ℕ) (pos : List ℚ) : List ℚ :=
  holdCapGo max_holding_bars 0 0 pos

/-- Scan implementing `Series.cumprod()`. -/
def cumprodGo (acc : ℚ) : List ℚ → List ℚ
  | [] => []
  | v :: rest => (acc * v) :: cumprodGo (acc * v) rest

/-- `Series.cumprod()`. -/
def cumprod (s : List ℚ) : List ℚ := cumprodGo 1 s

/-- `np.log(prices).diff()`: per-bar log returns of one leg. -/
def logRet (log : ℚ → ℚ) (p : List ℚ) : OSeries := diffS ((p.map log).map some)

/-- `backtest.backtest_pairs` line `out["pos"] = pos_spread.fillna(0.0)`. -/
def btPos (pos_spread : OSeries) : List ℚ := fillna 0 pos_spread

/-- Line `out["beta"] = beta.ffill().fillna(0.0)`. -/
def btBeta (beta : OSeries) : List ℚ := fillna 0 (ffill beta)

/-- Line `out["vol_scale"] = vol_scale.reindex(out.index).ffill().fillna(0.0)`
(the reindex is the identity here: caller and frame share one index). -/
def btVol (vol_scale : OSeries) : List ℚ := fillna 0 (ffill vol_scale)

/-- `eff_gross = (gross_leverage * vol_scale).clip(0, max_gross_leverage)`. -/
def btEffGross (gl mgl : ℚ) (vol_scale : OSeries) : List ℚ :=
  (btVol vol_scale).map (fun v => clip 0 mgl (gl * v))

/-- `denom = (1.0 + beta.abs()).replace(0.0, np.nan)`. -/
def btDenom (beta : OSeries) : OSeries :=
  (btBeta beta).map (fun b => if 1 + fabs b = 0 then none else some (1 + fabs b))

/-- `a = eff_gross / denom`. -/
def btA (gl mgl : ℚ) (vol_scale beta : OSeries) : OSeries :=
  List.zipWith odiv ((btEffGross gl mgl vol_scale).map some) (btDenom beta)

/-- The capped position column (`out["pos"] = pos_capped`). -/
def btPosCapped (mhb : ℕ) (pos_spread : OSeries) : List ℚ :=
  holdCap mhb (btPos pos_spread)

/-- `w_y = pos * a`. -/
def btWy (gl mgl : ℚ) (mhb : ℕ) (pos_spread beta vol_scale : OSeries) : OSeries :=
  List.zipWith omul ((btPosCapped mhb pos_spread).map some) (btA gl mgl vol_scale beta)

/-- `w_x = -pos * a * beta`. -/
def btWx (gl mgl : ℚ) (mhb : ℕ) (pos_spread beta vol_scale : OSeries) : OSeries :=
  List.zipWith omul
    (List.zipWith omul ((btPosCapped mhb pos_spread).map (fun p => some (-p)))
      (btA gl mgl vol_scale beta))
    ((btBeta beta).map some)

/-- `ret_gross = (w_y.shift(1) * ry + w_x.shift(1) * rx).fillna(0.0)`. -/
def btRetGross (log : ℚ → ℚ) (y x : List ℚ) (gl mgl : ℚ) (mhb : ℕ)
    (ps bs vs : OSeries) : List ℚ :=
  fillna 0
    (List.zipWith oadd
      (List.zipWith omul (shift1 (btWy gl mgl mhb ps bs vs)) (logRet log y))
      (List.zipWith omul (shift1 (btWx gl mgl mhb ps bs vs)) (logRet log x)))

/-- `turnover = (w_y.diff().abs() + w_x.diff().abs()).fillna(0.0)`. -/
def btTurnover (gl mgl : ℚ) (mhb : ℕ) (ps bs vs : OSeries) : List ℚ :=
  fillna 0
    (List.zipWith oadd
      ((diffS (btWy gl mgl mhb ps bs vs)).map (Option.map fabs))
      ((diffS (btWx gl mgl mhb ps bs vs)).map (Option.map fabs)))

/-- `cost = (fee_bps + slippage_bps) / 1e4 * turnover`. -/
def btCost (gl mgl fee slip : ℚ) (mhb : ℕ) (ps bs vs : OSeries) : List ℚ :=
  (btTurnover gl mgl mhb ps bs vs).map (fun t => (fee + slip) / 10000 * t)

/-- `ret_net = ret_gross - cost`. -/
def btRetNet (log : ℚ → ℚ) (y x : List ℚ) (gl mgl fee slip : ℚ) (mhb : ℕ)
    (ps bs vs : OSeries) : List ℚ :=
  List.zipWith (fun g c => g - c) (btRetGross log y x gl mgl mhb ps bs vs)
    (btCost gl mgl fee slip mhb ps bs vs)

/-- `equity = (1.0 + ret_net).cumprod()`. -/
def btEquity (log : ℚ → ℚ) (y x : List ℚ) (gl mgl fee slip : ℚ) (mhb : ℕ)
    (ps bs vs : OSeries) : List ℚ :=
  cumprod ((btRetNet log y x gl mgl fee slip mhb ps bs vs).map (fun r => 1 + r))

/-- The output columns of `backtest.backtest_pairs`. -/
structure BTFrame where
  ry : OSeries
  rx : OSeries
  pos : List ℚ
  beta : List ℚ
  vol_scale : List ℚ
  posCapped : List ℚ
  eff_gross : List ℚ
  a : OSeries
  w_y : OSeries
  w_x : OSeries
  ret_gross : List ℚ
  cost : List ℚ
  ret_net : List ℚ
  equity : List ℚ

/-- `backtest.backtest_pairs`, assembled column by column. -/
def backtest_pairs (log : ℚ → ℚ) (y x : List ℚ)
    (pos_spread beta vol_scale : OSeries) (gl mgl fee slip : ℚ)
    (mhb : ℕ) : BTFrame :=
  ⟨logRet log y, logRet log x, btPos pos_spread, btBeta beta, btVol vol_scale,
    btPosCapped mhb pos_spread, btEffGross gl mgl vol_scale,
    btA gl mgl vol_scale beta,
    btWy gl mgl mhb pos_spread beta vol_scale,
    btWx gl mgl mhb pos_spread beta vol_scale,
    btRetGross log y x gl mgl mhb pos_spread beta vol_scale,
    btCost gl mgl fee slip mhb pos_spread beta vol_scale,
    btRetNet log y x gl mgl fee slip mhb pos_spread beta vol_scale,
    btEquity log y x gl mgl fee slip mhb pos_spread beta vol_scale⟩

/-- The full pipeline as the spec wires it: feature frame, raw state
machine, cointegration regime filter, backtest. -/
def run_pipeline (sqrt log : ℚ → ℚ) (cointTest : List ℚ → List ℚ → Option ℚ)
    (y x : List ℚ) (lb lz lc : ℕ) (thr : ℚ) (lv : ℕ) (target lo hi : ℚ)
    (entry_z exit_z gl mgl fee slip : ℚ) (mhb : ℕ) : BTFrame :=
  let feat := compute_spread_and_z sqrt log cointTest y x lb lz lc thr lv target lo hi
  let pos_raw := generate_positions feat.z entry_z exit_z
  let pos := apply_coint_regime_filter (pos_raw.map some) feat.coint_p thr
  backtest_pairs log y x pos feat.beta (feat.vol_scale.map some) gl mgl fee slip mhb

theorem fabs_eq_abs (v : ℚ) : fabs v = |v| := by
  unfold fabs
  rcases le_or_lt 0 v with h | h
  · rw [if_neg (by linarith), abs_of_nonneg h]
  · rw [if_pos h, abs_of_neg h]

theorem fabs_nonneg (v : ℚ) : 0 ≤ fabs v := by
  rw [fabs_eq_abs]; exact abs_nonneg v

theorem one_add_fabs_ne (v : ℚ) : 1 + fabs v ≠ 0 := by
  have := fabs_nonneg v; intro h; linarith

theorem maxQ_eq_max (a b : ℚ) : maxQ a b = max a b := by
  unfold maxQ
  rcases lt_or_le a b with h | h
  · rw [if_pos h, max_eq_right h.le]
  · rw [if_neg (not_lt.mpr h), max_eq_left h]

theorem minQ_eq_min (a b : ℚ) : minQ a b = min a b := by
  unfold minQ
  rcases lt_or_le a b with h | h
  · rw [if_pos h, min_eq_left h.le]
  · rw [if_neg (not_lt.mpr h), min_eq_right h]

theorem clip_mem (lo hi v : ℚ) (h : lo ≤ hi) :
    lo ≤ clip lo hi v ∧ clip lo hi v ≤ hi := by
  unfold clip
  rw [maxQ_eq_max, minQ_eq_min]
  constructor
  · exact le_min (le_trans (le_max_right v lo) (le_refl _)) h |>.trans (le_refl _) |>.trans (le_refl _)
  · exact min_le_right _ _

theorem length_fillna (c : ℚ) (s : OSeries) : (fillna c s).length = s.length := by
  simp [fillna]

theorem getElem?_fillna (c : ℚ) (s : OSeries) (i : ℕ) :
    (fillna c s)[i]? = s[i]?.map (fun v => v.getD c) := by
  simp [fillna]

theorem length_shift1 (s : OSeries) : (shift1 s).length = s.length := by
  simp [shift1]

theorem getElem?_shift1_zero (s : OSeries) (h : 0 < s.length) :
    (shift1 s)[0]? = some none := by
  cases s with
  | nil => simp at h
  | cons a t => simp [shift1]

theorem getElem?_shift1_succ (s : OSeries) (i : ℕ) (h : i + 1 < s.length) :
    (shift1 s)[i + 1]? = s[i]? := by
  unfold shift1
  rw [List.getElem?_take_of_lt h]
  simp

theorem length_ffillGo (c : Option ℚ) (s : OSeries) :
    (ffillGo c s).length = s.length := by
  induction s generalizing c with
  | nil => rfl
  | cons a t ih => cases a <;> simp [ffillGo, ih]

theorem length_ffill (s : OSeries) : (ffill s).length = s.length :=
  length_ffillGo none s

theorem length_diffS (s : OSeries) : (diffS s).length = s.length := by
  simp [diffS, length_shift1]

theorem length_cumprodGo (acc : ℚ) (s : List ℚ) :
    (cumprodGo acc s).length = s.length := by
  induction s generalizing acc with
  | nil => rfl
  | cons a t ih => simp [cumprodGo, ih]

theorem length_holdCapGo (m : ℕ) (hold : ℕ) (prev : ℚ) (s : List ℚ) :
    (holdCapGo m hold prev s).length = s.length := by
  induction s generalizing hold prev with
  | nil => rfl
  | cons a t ih =>
    unfold holdCapGo
    split_ifs
    · simp [ih]
    · simp [apply_ite List.length, ih]
    · simp [apply_ite List.length, ih]

theorem length_holdCap (m : ℕ) (s : List ℚ) : (holdCap m s).length = s.length :=
  length_holdCapGo m 0 0 s

theorem length_rollingO (w : ℕ) (f : List ℚ → Option ℚ) (s : OSeries) :
    (rollingO w f s).length = s.length := by
  simp [rollingO]

theorem length_rollingT (w : ℕ) (f : List ℚ → Option ℚ) (s : List ℚ) :
    (rollingT w f s).length = s.length := by
  simp [rollingT]

theorem length_posGo (en ex st : ℚ) (vs : OSeries) :
    (posGo en ex st vs).length = vs.length := by
  induction vs generalizing st with
  | nil => rfl
  | cons v rest ih => simp [posGo, ih]

theorem posGo_cons (en ex st : ℚ) (v : Option ℚ) (rest : OSeries) :
    posGo en ex st (v :: rest) =
      posStep en ex st v :: posGo en ex (posStep en ex st v) rest := rfl

/-- Each emitted position is one legal `posStep` away from the previous
emitted position, reading the z-value of its own bar. -/
theorem posGo_succ (en ex st : ℚ) (vs : OSeries) (t : ℕ) (q p : ℚ)
    (hq : (posGo en ex st vs)[t]? = some q)
    (hp : (posGo en ex st vs)[t + 1]? = some p) :
    ∃ ov, vs[t + 1]? = some ov ∧ p = posStep en ex q ov := by
  induction vs generalizing st t with
  | nil => simp [posGo] at hq
  | cons v rest ih =>
    rw [posGo_cons] at hq hp
    cases t with
    | zero =>
      rw [List.getElem?_cons_zero] at hq
      rw [List.getElem?_cons_succ] at hp
      obtain rfl : q = posStep en ex st v := by
        exact (Option.some_inj.mp hq).symm
      cases rest with
      | nil => simp [posGo] at hp
      | cons w l =>
        rw [posGo_cons, List.getElem?_cons_zero] at hp
        exact ⟨w, by simp, (Option.some_inj.mp hp).symm⟩
    | succ n =>
      rw [List.getElem?_cons_succ] at hq hp
      obtain ⟨ov, hov, hps⟩ := ih (posStep en ex st v) n hq hp
      exact ⟨ov, by simpa using hov, hps⟩

theorem posStep_mem (en ex st : ℚ) (ov : Option ℚ)
    (h : st = -1 ∨ st = 0 ∨ st = 1) :
    posStep en ex st ov = -1 ∨ posStep en ex st ov = 0 ∨ posStep en ex st ov = 1 := by
  cases ov with
  | none => simp [posStep]
  | some v =>
    simp only [posStep]
    split_ifs
    · norm_num
    · norm_num
    · norm_num
    · norm_num
    · exact h

theorem posGo_mem (en ex st : ℚ) (vs : OSeries)
    (h : st = -1 ∨ st = 0 ∨ st = 1) (t : ℕ) (p : ℚ)
    (hp : (posGo en ex st vs)[t]? = some p) : p = -1 ∨ p = 0 ∨ p = 1 := by
  induction vs generalizing st t with
  | nil => simp [posGo] at hp
  | cons v rest ih =>
    rw [posGo_cons] at hp
    cases t with
    | zero =>
      rw [List.getElem?_cons_zero] at hp
      obtain rfl := (Option.some_inj.mp hp).symm
      exact posStep_mem en ex st v h
    | succ n =>
      rw [List.getElem?_cons_succ] at hp
      exact ih (posStep en ex st v) (posStep_mem en ex st v h) n hp

theorem posStep_long_ne (en ex : ℚ) (ov : Option ℚ) : posStep en ex 1 ov ≠ -1 := by
  cases ov with
  | none => simp [posStep]
  | some v =>
    simp only [posStep]
    rw [if_neg (by norm_num : ¬(1 : ℚ) = 0)]
    split_ifs <;> norm_num

theorem posStep_short_ne (en ex : ℚ) (ov : Option ℚ) : posStep en ex (-1) ov ≠ 1 := by
  cases ov with
  | none => simp [posStep]
  | some v =>
    simp only [posStep]
    rw [if_neg (by norm_num : ¬(-1 : ℚ) = 0)]
    split_ifs <;> norm_num

/-- C4: with `entry_z > exit_z`, every position emitted by
`generate_positions` lies in `{-1, 0, +1}`, and the emitted position
never flips between `+1` and `-1` across consecutive bars without a `0`
bar in between. -/
theorem C4_positions_discrete_no_same_step_flip (z : OSeries) (en ex : ℚ)
    (hth : ex < en) (t : ℕ) :
    (∀ p, (generate_positions z en ex)[t]? = some p →
        p = -1 ∨ p = 0 ∨ p = 1) ∧
    ¬((generate_positions z en ex)[t]? = some 1 ∧
        (generate_positions z en ex)[t + 1]? = some (-1)) ∧
    ¬((generate_positions z en ex)[t]? = some (-1) ∧
        (generate_positions z en ex)[t + 1]? = some 1) := by
  refine ⟨fun p hp => posGo_mem en ex 0 z (by norm_num) t p hp, ?_, ?_⟩
  · rintro ⟨h1, h2⟩
    obtain ⟨ov, _, hps⟩ := posGo_succ en ex 0 z t 1 (-1) h1 h2
    exact posStep_long_ne en ex ov hps.symm
  · rintro ⟨h1, h2⟩
    obtain ⟨ov, _, hps⟩ := posGo_succ en ex 0 z t (-1) 1 h1 h2
    exact posStep_short_ne en ex ov hps.symm

theorem C4_witness :
    (∀ p : ℚ, (generate_positions [some 3, some 3] 2 1)[0]? = some p →
        p = -1 ∨ p = 0 ∨ p = 1) ∧
    ¬((generate_positions [some 3, some 3] 2 1)[0]? = some 1 ∧
        (generate_positions [some 3, some 3] 2 1)[0 + 1]? = some (-1 : ℚ)) ∧
    ¬((generate_positions [some 3, some 3] 2 1)[0]? = some (-1 : ℚ) ∧
        (generate_positions [some 3, some 3] 2 1)[0 + 1]? = some 1) :=
  C4_positions_discrete_no_same_step_flip [some 3, some 3] 2 1 (by norm_num) 0

theorem posGo_nan (en ex st : ℚ) (vs : OSeries) (t : ℕ)
    (h : vs[t]? = some none) : (posGo en ex st vs)[t]? = some 0 := by
  induction vs generalizing st t with
  | nil => simp at h
  | cons v rest ih =>
    rw [posGo_cons]
    cases t with
    | zero =>
      obtain rfl : v = none := by simpa using h
      simp [posStep]
    | succ n =>
      rw [List.getElem?_cons_succ]
      exact ih (posStep en ex st v) n (by simpa using h)

theorem posStep_flat_stays (en ex : ℚ) (ov : Option ℚ)
    (h : ∀ v, ov = some v → fabs v < en) : posStep en ex 0 ov = 0 := by
  cases ov with
  | none => rfl
  | some v =>
    have hv := h v rfl
    rw [fabs_eq_abs] at hv
    have h1 : ¬ en ≤ v := by
      intro hle
      have := le_abs_self v
      linarith
    have h2 : ¬ v ≤ -en := by
      intro hle
      have := neg_abs_le v
      linarith
    simp only [posStep]
    simp [h1, h2]

/-- C10: a NaN z-score at bar `t` emits position `0` and resets the
machine to flat; afterwards the machine stays flat as long as every
defined `|z|` stays below the entry threshold — it never resumes its
pre-gap state merely because `|z|` is above the exit threshold. -/
theorem C10_nan_resets_machine (z : OSeries) (en ex : ℚ) (t : ℕ)
    (hnan : z[t]? = some none) :
    (generate_positions z en ex)[t]? = some 0 ∧
    ∀ u, t ≤ u → u < z.length →
      (∀ s v, t < s → s ≤ u → z[s]? = some (some v) → fabs v < en) →
      (generate_positions z en ex)[u]? = some 0 := by
  refine ⟨posGo_nan en ex 0 z t hnan, ?_⟩
  intro u htu hu hsmall
  induction u with
  | zero => exact Nat.le_zero.mp htu ▸ posGo_nan en ex 0 z t hnan
  | succ n ih =>
    rcases Nat.lt_or_ge t (n + 1) with hlt | hge
    · have htn : t ≤ n := Nat.lt_succ_iff.mp hlt
      have hn : n < z.length := Nat.lt_of_succ_lt hu
      have h0 : (generate_positions z en ex)[n]? = some 0 :=
        ih htn hn (fun s v hs1 hs2 hz => hsmall s v hs1 (Nat.le_succ_of_le hs2) hz)
      have hlen : (generate_positions z en ex).length = z.length :=
        length_posGo en ex 0 z
      have hsome : ∃ p, (generate_positions z en ex)[n + 1]? = some p := by
        refine ⟨(generate_positions z en ex).get ⟨n + 1, by omega⟩, ?_⟩
        exact List.getElem?_eq_getElem (by omega)
      obtain ⟨p, hp⟩ := hsome
      obtain ⟨ov, hov, hps⟩ := posGo_succ en ex 0 z n 0 p h0 hp
      have : p = 0 := by
        rw [hps]
        exact posStep_flat_stays en ex ov
          (fun v hv => hsmall (n + 1) v hlt (le_refl _) (hv ▸ hov))
      rw [hp, this]
    · exact Nat.le_antisymm htu hge ▸ posGo_nan en ex 0 z t hnan

theorem C10_witness :
    ((generate_positions [some 3, none, some 1] 2 (1/2))[1]? = some 0 ∧
      ∀ u, 1 ≤ u → u < ([some 3, none, some 1] : OSeries).length →
        (∀ s v, 1 < s → s ≤ u →
          ([some 3, none, some 1] : OSeries)[s]? = some (some v) → fabs v < 2) →
        (generate_positions [some 3, none, some 1] 2 (1/2))[u]? = some 0) ∧
    ¬ (fabs 1 ≤ (1/2 : ℚ)) :=
  ⟨C10_nan_resets_machine [some 3, none, some 1] 2 (1/2) 1 (by simp),
    by rw [fabs_eq_abs]; norm_num⟩

/-- C5: at every bar where the tradability flag is false — in particular
at every bar with a NaN p-value — the filtered position is exactly zero,
and at every bar where it is true the filtered position is the raw one. -/
theorem C5_regime_filter (pos pvals : OSeries) (thr : ℚ) (t : ℕ)
    (h1 : t < pos.length) (h2 : t < pvals.length) :
    (∀ pv, pvals[t]? = some pv → tradableFlag thr pv = false →
      (apply_coint_regime_filter pos pvals thr)[t]? = some (some 0)) ∧
    (pvals[t]? = some none →
      (apply_coint_regime_filter pos pvals thr)[t]? = some (some 0)) ∧
    (∀ pv, pvals[t]? = some pv → tradableFlag thr pv = true →
      (apply_coint_regime_filter pos pvals thr)[t]? = pos[t]?) := by
  have hp : pos[t]? = some pos[t] := List.getElem?_eq_getElem h1
  refine ⟨?_, ?_, ?_⟩
  · intro pv hpv hflag
    unfold apply_coint_regime_filter
    rw [List.getElem?_zipWith, hp, hpv]
    simp [hflag]
  · intro hpv
    unfold apply_coint_regime_filter
    rw [List.getElem?_zipWith, hp, hpv]
    simp [tradableFlag]
  · intro pv hpv hflag
    unfold apply_coint_regime_filter
    rw [List.getElem?_zipWith, hp, hpv]
    simp [hflag]

theorem C5_witness :
    ((∀ pv, ([some 1, none] : OSeries)[0]? = some pv →
        tradableFlag 2 pv = false →
        (apply_coint_regime_filter [some 5, some 7] [some 1, none] 2)[0]? =
          some (some 0)) ∧
      (([some 1, none] : OSeries)[0]? = some none →
        (apply_coint_regime_filter [some 5, some 7] [some 1, none] 2)[0]? =
          some (some 0)) ∧
      (∀ pv, ([some 1, none] : OSeries)[0]? = some pv →
        tradableFlag 2 pv = true →
        (apply_coint_regime_filter [some 5, some 7] [some 1, none] 2)[0]? =
          ([some 5, some 7] : OSeries)[0]?)) ∧
    tradableFlag 2 (some 1) = true :=
  ⟨C5_regime_filter [some 5, some 7] [some 1, none] 2 0 (by norm_num) (by norm_num),
    by norm_num [tradableFlag]⟩

/-- C8: `compute_vol_scale` returns a series of the input length that is
defined everywhere (the return type carries no NaN), with every value in
`[min_scale, max_scale]`; a missing or non-finite intermediate ratio is
replaced by zero before the clamp. -/
theorem C8_vol_scale_bounded (sq : ℚ → ℚ) (spread : OSeries) (w : ℕ)
    (target lo hi : ℚ) (hlh : lo ≤ hi) :
    (compute_vol_scale sq spread w target lo hi).length = spread.length ∧
    (∀ (t : ℕ) (v : ℚ), (compute_vol_scale sq spread w target lo hi)[t]? = some v →
      lo ≤ v ∧ v ≤ hi) ∧
    (∀ t : ℕ, ((rollingO w (fun l => some (sq (varP l))) (diffS spread)).map
        (fun v => odiv (some target) v))[t]? = some none →
      (compute_vol_scale sq spread w target lo hi)[t]? = some (clip lo hi 0)) := by
  refine ⟨?_, ?_, ?_⟩
  · simp [compute_vol_scale, fillna, length_rollingO, length_diffS]
  · intro t v hv
    simp only [compute_vol_scale] at hv
    rw [List.getElem?_map] at hv
    obtain ⟨u, _, rfl⟩ := Option.map_eq_some'.mp hv
    exact clip_mem lo hi u hlh
  · intro t hnone
    simp only [compute_vol_scale]
    rw [List.getElem?_map, getElem?_fillna, hnone]
    simp

theorem C8_witness :
    ((compute_vol_scale id [some 1, none] 1 1 0 3).length =
        ([some 1, none] : OSeries).length ∧
      (∀ (t : ℕ) (v : ℚ), (compute_vol_scale id [some 1, none] 1 1 0 3)[t]? = some v →
        0 ≤ v ∧ v ≤ 3) ∧
      (∀ t : ℕ, ((rollingO 1 (fun l => some (id (varP l))) (diffS [some 1, none])).map
          (fun v => odiv (some 1) v))[t]? = some none →
        (compute_vol_scale id [some 1, none] 1 1 0 3)[t]? = some (clip 0 3 0))) ∧
    (0 : ℚ) ≤ 3 :=
  ⟨C8_vol_scale_bounded id [some 1, none] 1 1 0 3 (by norm_num), by norm_num⟩

theorem holdCapGo_cons_z (m hold : ℕ) (prev v0 : ℚ) (rest : List ℚ)
    (h : v0 = 0) :
    holdCapGo m hold prev (v0 :: rest) = 0 :: holdCapGo m 0 0 rest := by
  subst h
  simp [holdCapGo]

theorem holdCapGo_cons_force (m hold : ℕ) (prev v0 : ℚ) (rest : List ℚ)
    (h : v0 ≠ 0) (hf : m < (if prev = v0 then hold + 1 else 1)) :
    holdCapGo m hold prev (v0 :: rest) = 0 :: holdCapGo m 0 0 rest := by
  simp [holdCapGo, h, hf]

theorem holdCapGo_cons_keep (m hold : ℕ) (prev v0 : ℚ) (rest : List ℚ)
    (h : v0 ≠ 0) (hf : ¬ m < (if prev = v0 then hold + 1 else 1)) :
    holdCapGo m hold prev (v0 :: rest) =
      v0 :: holdCapGo m (if prev = v0 then hold + 1 else 1) v0 rest := by
  simp [holdCapGo, h, hf]

/-- Run-length bound for the holding-cap scan: entering with `hold ≤ m`
bars of budget already used on the value `prev`, the output never shows
`m - hold + 1` leading copies of `prev` at position `0`, nor `m + 1`
consecutive copies of any nonzero value anywhere else. -/
theorem holdCapGo_run_bound (m : ℕ) (vs : List ℚ) :
    ∀ (hold : ℕ) (prev : ℚ), hold ≤ m →
      ∀ (i : ℕ) (v : ℚ), v ≠ 0 →
        ¬ (∀ k, k ≤ (if i = 0 ∧ v = prev then m - hold else m) →
            (holdCapGo m hold prev vs)[i + k]? = some v) := by
  induction vs with
  | nil =>
    intro hold prev _ i v _ H
    have h0 := H 0 (Nat.zero_le _)
    simp [holdCapGo] at h0
  | cons v0 rest ih =>
    intro hold prev hhm i v hv H
    by_cases hzero : v0 = 0 ∨ m < (if prev = v0 then hold + 1 else 1)
    · -- the head bar is emitted as 0 and the state resets
      have hout : holdCapGo m hold prev (v0 :: rest) = 0 :: holdCapGo m 0 0 rest := by
        rcases hzero with h | h
        · exact holdCapGo_cons_z m hold prev v0 rest h
        · rcases eq_or_ne v0 0 with h' | h'
          · exact holdCapGo_cons_z m hold prev v0 rest h'
          · exact holdCapGo_cons_force m hold prev v0 rest h' h
      rw [hout] at H
      cases i with
      | zero =>
        have h0 := H 0 (Nat.zero_le _)
        rw [List.getElem?_cons_zero] at h0
        exact hv (Option.some_inj.mp h0).symm
      | succ j =>
        refine ih 0 0 (Nat.zero_le m) j v hv ?_
        intro k hk
        rw [if_neg (fun hc => hv hc.2)] at hk
        have := H k (by rw [if_neg (by simp)]; exact hk)
        rwa [show j + 1 + k = (j + k) + 1 by omega, List.getElem?_cons_succ] at this
    · -- the head bar keeps the desired position v0
      push_neg at hzero
      obtain ⟨hne, hkeep⟩ := hzero
      set hold1 := if prev = v0 then hold + 1 else 1 with hh1
      have hout := holdCapGo_cons_keep m hold prev v0 rest hne (not_lt.mpr hkeep)
      rw [hout] at H
      have hh1m : hold1 ≤ m := hkeep
      cases i with
      | zero =>
        have h0 := H 0 (Nat.zero_le _)
        rw [List.getElem?_cons_zero] at h0
        obtain rfl : v0 = v := Option.some_inj.mp h0
        by_cases hvp : v0 = prev
        · -- continuing the previous run: budget shrinks by one
          have hp1 : hold1 = hold + 1 := by rw [hh1, if_pos hvp.symm]
          refine ih hold1 v0 hh1m 0 v0 hv ?_
          intro k hk
          rw [if_pos ⟨rfl, rfl⟩, hp1] at hk
          have := H (k + 1) (by rw [if_pos ⟨rfl, hvp⟩]; omega)
          rwa [show 0 + (k + 1) = (0 + k) + 1 by omega, List.getElem?_cons_succ] at this
        · -- a fresh run: budget is m - 1
          have hp1 : hold1 = 1 := by
            rw [hh1, if_neg (fun hc => hvp hc.symm)]
          have h1m : 1 ≤ m := hp1 ▸ hh1m
          refine ih hold1 v0 hh1m 0 v0 hv ?_
          intro k hk
          rw [if_pos ⟨rfl, rfl⟩, hp1] at hk
          have := H (k + 1) (by rw [if_neg (by simp [hvp])]; omega)
          rwa [show 0 + (k + 1) = (0 + k) + 1 by omega, List.getElem?_cons_succ] at this
      | succ j =>
        refine ih hold1 v0 hh1m j v hv ?_
        intro k hk
        have hkm : k ≤ m := by
          rcases em (j = 0 ∧ v = v0) with hc | hc
          · rw [if_pos hc] at hk; omega
          · rwa [if_neg hc] at hk
        have := H k (by rw [if_neg (by simp)]; exact hkm)
        rwa [show j + 1 + k = (j + k) + 1 by omega, List.getElem?_cons_succ] at this

/-- Every bar of the holding-capped output either repeats the desired
input position of that bar or is forced to zero. -/
theorem holdCapGo_emit (m : ℕ) (vs : List ℚ) :
    ∀ (hold : ℕ) (prev : ℚ) (j : ℕ) (wv : ℚ),
      (holdCapGo m hold prev vs)[j]? = some wv → wv = 0 ∨ vs[j]? = some wv := by
  induction vs with
  | nil =>
    intro _ _ j wv h
    simp [holdCapGo] at h
  | cons v0 rest ih =>
    intro hold prev j wv h
    by_cases h0 : v0 = 0
    · rw [holdCapGo_cons_z m hold prev v0 rest h0] at h
      cases j with
      | zero =>
        rw [List.getElem?_cons_zero] at h
        exact Or.inl (Option.some_inj.mp h).symm
      | succ n =>
        rw [List.getElem?_cons_succ] at h
        rcases ih 0 0 n wv h with h1 | h1
        · exact Or.inl h1
        · exact Or.inr (by rwa [List.getElem?_cons_succ])
    · by_cases hf : m < (if prev = v0 then hold + 1 else 1)
      · rw [holdCapGo_cons_force m hold prev v0 rest h0 hf] at h
        cases j with
        | zero =>
          rw [List.getElem?_cons_zero] at h
          exact Or.inl (Option.some_inj.mp h).symm
        | succ n =>
          rw [List.getElem?_cons_succ] at h
          rcases ih 0 0 n wv h with h1 | h1
          · exact Or.inl h1
          · exact Or.inr (by rwa [List.getElem?_cons_succ])
      · rw [holdCapGo_cons_keep m hold prev v0 rest h0 hf] at h
        cases j with
        | zero =>
          rw [List.getElem?_cons_zero] at h
          exact Or.inr (by rw [List.getElem?_cons_zero, h])
        | succ n =>
          rw [List.getElem?_cons_succ] at h
          rcases ih _ v0 n wv h with h1 | h1
          · exact Or.inl h1
          · exact Or.inr (by rwa [List.getElem?_cons_succ])

theorem backtest_posCapped (lg : ℚ → ℚ) (y x : List ℚ) (ps bs vs : OSeries)
    (gl mgl fee slip : ℚ) (m : ℕ) :
    (backtest_pairs lg y x ps bs vs gl mgl fee slip m).posCapped =
      holdCapGo m 0 0 (fillna 0 ps) := rfl

/-- C3: in the holding-capped position series built inside
`backtest_pairs`, no `max_holding_bars + 1` consecutive bars all hold the
same nonzero position, and a bar whose desired input position would
extend a maximal run of `max_holding_bars` bars is forced to exactly
zero. -/
theorem C3_holding_cap (lg : ℚ → ℚ) (y x : List ℚ) (ps bs vs : OSeries)
    (gl mgl fee slip : ℚ) (m : ℕ) (hm : 1 ≤ m) (i : ℕ) (v : ℚ) (hv : v ≠ 0) :
    (¬ ∀ k, k ≤ m →
      (backtest_pairs lg y x ps bs vs gl mgl fee slip m).posCapped[i + k]? =
        some v) ∧
    ((∀ k, k < m →
        (backtest_pairs lg y x ps bs vs gl mgl fee slip m).posCapped[i + k]? =
          some v) →
      ps[i + m]? = some (some v) →
      (backtest_pairs lg y x ps bs vs gl mgl fee slip m).posCapped[i + m]? =
        some 0) := by
  rw [backtest_posCapped]
  have hbound := holdCapGo_run_bound m (fillna 0 ps) 0 0 (Nat.zero_le m) i v hv
  rw [if_neg (fun hc => hv hc.2)] at hbound
  refine ⟨fun H => hbound (fun k hk => H k hk), ?_⟩
  intro hrun hcont
  have hfill : (fillna 0 ps)[i + m]? = some v := by
    rw [getElem?_fillna, hcont]
    rfl
  have hlt : i + m < (fillna 0 ps).length := by
    have := List.getElem?_eq_some_iff.mp hfill
    exact this.1
  have hlen : (holdCapGo m 0 0 (fillna 0 ps)).length = (fillna 0 ps).length :=
    length_holdCapGo m 0 0 (fillna 0 ps)
  obtain ⟨wv, hwv⟩ : ∃ wv, (holdCapGo m 0 0 (fillna 0 ps))[i + m]? = some wv :=
    ⟨_, List.getElem?_eq_getElem (by omega)⟩
  rcases holdCapGo_emit m (fillna 0 ps) 0 0 (i + m) wv hwv with h1 | h1
  · rwa [h1] at hwv
  · exfalso
    refine hbound (fun k hk => ?_)
    rcases Nat.lt_or_ge k m with hkm | hkm
    · exact hrun k hkm
    · obtain rfl : k = m := by omega
      rw [hfill] at h1
      rw [hwv, Option.some_inj.mp h1]

theorem C3_witness :
    (¬ ∀ k, k ≤ 1 →
      (backtest_pairs id [1, 1] [1, 1] [some 1, some 1] [some 1, some 1]
        [some 1, some 1] 1 2 0 0 1).posCapped[0 + k]? = some 1) ∧
    ((∀ k, k < 1 →
        (backtest_pairs id [1, 1] [1, 1] [some 1, some 1] [some 1, some 1]
          [some 1, some 1] 1 2 0 0 1).posCapped[0 + k]? = some 1) →
      ([some 1, some 1] : OSeries)[0 + 1]? = some (some 1) →
      (backtest_pairs id [1, 1] [1, 1] [some 1, some 1] [some 1, some 1]
        [some 1, some 1] 1 2 0 0 1).posCapped[0 + 1]? = some 0) :=
  C3_holding_cap id [1, 1] [1, 1] [some 1, some 1] [some 1, some 1]
    [some 1, some 1] 1 2 0 0 1 (le_refl 1) 0 1 (by norm_num)

theorem length_btPos (ps : OSeries) : (btPos ps).length = ps.length := by
  simp [btPos, fillna]

theorem length_btBeta (bs : OSeries) : (btBeta bs).length = bs.length := by
  simp [btBeta, fillna, length_ffill]

theorem length_btVol (vs : OSeries) : (btVol vs).length = vs.length := by
  simp [btVol, fillna, length_ffill]

theorem length_btEffGross (gl mgl : ℚ) (vs : OSeries) :
    (btEffGross gl mgl vs).length = vs.length := by
  simp [btEffGross, length_btVol]

theorem length_btDenom (bs : OSeries) : (btDenom bs).length = bs.length := by
  simp [btDenom, length_btBeta]

theorem length_btA (gl mgl : ℚ) (vs bs : OSeries) :
    (btA gl mgl vs bs).length = min vs.length bs.length := by
  simp [btA, length_btEffGross, length_btDenom]

theorem length_btPosCapped (mhb : ℕ) (ps : OSeries) :
    (btPosCapped mhb ps).length = ps.length := by
  simp [btPosCapped, holdCap, length_holdCapGo, length_btPos]

theorem length_btWy (gl mgl : ℚ) (mhb : ℕ) (ps bs vs : OSeries) :
    (btWy gl mgl mhb ps bs vs).length =
      min ps.length (min vs.length bs.length) := by
  simp [btWy, length_btPosCapped, length_btA]

theorem length_btWx (gl mgl : ℚ) (mhb : ℕ) (ps bs vs : OSeries) :
    (btWx gl mgl mhb ps bs vs).length =
      min (min ps.length (min vs.length bs.length)) bs.length := by
  simp [btWx, length_btPosCapped, length_btA, length_btBeta, Nat.min_assoc]

theorem length_logRet (lg : ℚ → ℚ) (p : List ℚ) :
    (logRet lg p).length = p.length := by
  simp [logRet, length_diffS]

theorem backtest_ry (lg : ℚ → ℚ) (y x : List ℚ) (ps bs vs : OSeries)
    (gl mgl fee slip : ℚ) (mhb : ℕ) :
    (backtest_pairs lg y x ps bs vs gl mgl fee slip mhb).ry = logRet lg y := rfl

theorem backtest_rx (lg : ℚ → ℚ) (y x : List ℚ) (ps bs vs : OSeries)
    (gl mgl fee slip : ℚ) (mhb : ℕ) :
    (backtest_pairs lg y x ps bs vs gl mgl fee slip mhb).rx = logRet lg x := rfl

theorem backtest_pos (lg : ℚ → ℚ) (y x : List ℚ) (ps bs vs : OSeries)
    (gl mgl fee slip : ℚ) (mhb : ℕ) :
    (backtest_pairs lg y x ps bs vs gl mgl fee slip mhb).pos = btPos ps := rfl

theorem backtest_beta_col (lg : ℚ → ℚ) (y x : List ℚ) (ps bs vs : OSeries)
    (gl mgl fee slip : ℚ) (mhb : ℕ) :
    (backtest_pairs lg y x ps bs vs gl mgl fee slip mhb).beta = btBeta bs := rfl

theorem backtest_a (lg : ℚ → ℚ) (y x : List ℚ) (ps bs vs : OSeries)
    (gl mgl fee slip : ℚ) (mhb : ℕ) :
    (backtest_pairs lg y x ps bs vs gl mgl fee slip mhb).a =
      btA gl mgl vs bs := rfl

theorem backtest_w_y (lg : ℚ → ℚ) (y x : List ℚ) (ps bs vs : OSeries)
    (gl mgl fee slip : ℚ) (mhb : ℕ) :
    (backtest_pairs lg y x ps bs vs gl mgl fee slip mhb).w_y =
      btWy gl mgl mhb ps bs vs := rfl

theorem backtest_w_x (lg : ℚ → ℚ) (y x : List ℚ) (ps bs vs : OSeries)
    (gl mgl fee slip : ℚ) (mhb : ℕ) :
    (backtest_pairs lg y x ps bs vs gl mgl fee slip mhb).w_x =
      btWx gl mgl mhb ps bs vs := rfl

theorem backtest_ret_gross (lg : ℚ → ℚ) (y x : List ℚ) (ps bs vs : OSeries)
    (gl mgl fee slip : ℚ) (mhb : ℕ) :
    (backtest_pairs lg y x ps bs vs gl mgl fee slip mhb).ret_gross =
      btRetGross lg y x gl mgl mhb ps bs vs := rfl

theorem backtest_cost (lg : ℚ → ℚ) (y x : List ℚ) (ps bs vs : OSeries)
    (gl mgl fee slip : ℚ) (mhb : ℕ) :
    (backtest_pairs lg y x ps bs vs gl mgl fee slip mhb).cost =
      btCost gl mgl fee slip mhb ps bs vs := rfl

theorem backtest_equity (lg : ℚ → ℚ) (y x : List ℚ) (ps bs vs : OSeries)
    (gl mgl fee slip : ℚ) (mhb : ℕ) :
    (backtest_pairs lg y x ps bs vs gl mgl fee slip mhb).equity =
      btEquity lg y x gl mgl fee slip mhb ps bs vs := rfl

/-- At every in-range bar the normalising factor is the defined value
`eff_gross / (1 + |filled beta|)`: the replaced-by-NaN branch of the
denominator can never fire because `1 + |b| ≥ 1`. -/
theorem btA_spec (gl mgl : ℚ) (vs bs : OSeries) (t : ℕ)
    (hv : t < vs.length) (hb : t < bs.length) :
    ∃ e b, (btEffGross gl mgl vs)[t]? = some e ∧ (btBeta bs)[t]? = some b ∧
      (btA gl mgl vs bs)[t]? = some (some (e / (1 + fabs b))) := by
  obtain ⟨e, he⟩ : ∃ e, (btEffGross gl mgl vs)[t]? = some e :=
    ⟨_, List.getElem?_eq_getElem (by rw [length_btEffGross]; exact hv)⟩
  obtain ⟨b, hbb⟩ : ∃ b, (btBeta bs)[t]? = some b :=
    ⟨_, List.getElem?_eq_getElem (by rw [length_btBeta]; exact hb)⟩
  refine ⟨e, b, he, hbb, ?_⟩
  simp only [btA, btDenom, List.getElem?_zipWith, List.getElem?_map, he, hbb]
  simp [odiv, one_add_fabs_ne b]

theorem btWy_spec (gl mgl : ℚ) (mhb : ℕ) (ps bs vs : OSeries) (t : ℕ)
    (hp : t < ps.length) (hb : t < bs.length) (hv : t < vs.length) :
    ∃ pc av, (btPosCapped mhb ps)[t]? = some pc ∧
      (btA gl mgl vs bs)[t]? = some (some av) ∧
      (btWy gl mgl mhb ps bs vs)[t]? = some (some (pc * av)) := by
  obtain ⟨e, b, _, _, ha⟩ := btA_spec gl mgl vs bs t hv hb
  obtain ⟨pc, hpc⟩ : ∃ pc, (btPosCapped mhb ps)[t]? = some pc :=
    ⟨_, List.getElem?_eq_getElem (by rw [length_btPosCapped]; exact hp)⟩
  refine ⟨pc, _, hpc, ha, ?_⟩
  simp only [btWy, List.getElem?_zipWith, List.getElem?_map, hpc, ha]
  simp [omul]

theorem btWx_spec (gl mgl : ℚ) (mhb : ℕ) (ps bs vs : OSeries) (t : ℕ)
    (hp : t < ps.length) (hb : t < bs.length) (hv : t < vs.length) :
    ∃ pc av b, (btPosCapped mhb ps)[t]? = some pc ∧
      (btA gl mgl vs bs)[t]? = some (some av) ∧ (btBeta bs)[t]? = some b ∧
      (btWx gl mgl mhb ps bs vs)[t]? = some (some (-pc * av * b)) := by
  obtain ⟨e, b, _, hbb, ha⟩ := btA_spec gl mgl vs bs t hv hb
  obtain ⟨pc, hpc⟩ : ∃ pc, (btPosCapped mhb ps)[t]? = some pc :=
    ⟨_, List.getElem?_eq_getElem (by rw [length_btPosCapped]; exact hp)⟩
  refine ⟨pc, _, b, hpc, ha, hbb, ?_⟩
  simp only [btWx, List.getElem?_zipWith, List.getElem?_map, hpc, ha, hbb]
  simp [omul]

/-- C1 (amended): `backtest_pairs` forward-fills `beta` and replaces any
remaining missing value by zero before the weights are built, so the
normalising factor `a` is a defined value at every in-range bar — the
`replace(0, NaN)` guard can never fire since `1 + |b| ≥ 1` — and the leg
weights are `w_y = pos·a` and `w_x = -pos·a·b` computed from the filled
beta `b`; they are not forced to zero at a bar where the input `beta` is
missing. -/
theorem C1_amended_a_always_defined (lg : ℚ → ℚ) (y x : List ℚ)
    (ps bs vs : OSeries) (gl mgl fee slip : ℚ) (mhb : ℕ) (t : ℕ)
    (hp : t < ps.length) (hb : t < bs.length) (hv : t < vs.length) :
    ∃ pc av b,
      (backtest_pairs lg y x ps bs vs gl mgl fee slip mhb).posCapped[t]? =
        some pc ∧
      (backtest_pairs lg y x ps bs vs gl mgl fee slip mhb).beta[t]? = some b ∧
      (backtest_pairs lg y x ps bs vs gl mgl fee slip mhb).a[t]? =
        some (some av) ∧
      (backtest_pairs lg y x ps bs vs gl mgl fee slip mhb).w_y[t]? =
        some (some (pc * av)) ∧
      (backtest_pairs lg y x ps bs vs gl mgl fee slip mhb).w_x[t]? =
        some (some (-pc * av * b)) := by
  obtain ⟨pc, av, hpc, ha, hwy⟩ := btWy_spec gl mgl mhb ps bs vs t hp hb hv
  obtain ⟨pc', av', b, hpc', ha', hbb, hwx⟩ := btWx_spec gl mgl mhb ps bs vs t hp hb hv
  obtain rfl : pc' = pc := by
    have := hpc'.symm.trans hpc
    exact Option.some_inj.mp this
  obtain rfl : av' = av := by
    have := ha'.symm.trans ha
    simpa using this
  refine ⟨pc', av', b, ?_, ?_, ?_, ?_, ?_⟩
  · rwa [backtest_posCapped]
  · rwa [backtest_beta_col]
  · rwa [backtest_a]
  · rwa [backtest_w_y]
  · rwa [backtest_w_x]

theorem C1_witness :
    ∃ pc av b : ℚ,
      (backtest_pairs id [1, 1] [1, 1] [some 1, some 1] [some 1, none]
        [some 1, some 1] 1 2 0 0 5).posCapped[1]? = some pc ∧
      (backtest_pairs id [1, 1] [1, 1] [some 1, some 1] [some 1, none]
        [some 1, some 1] 1 2 0 0 5).beta[1]? = some b ∧
      (backtest_pairs id [1, 1] [1, 1] [some 1, some 1] [some 1, none]
        [some 1, some 1] 1 2 0 0 5).a[1]? = some (some av) ∧
      (backtest_pairs id [1, 1] [1, 1] [some 1, some 1] [some 1, none]
        [some 1, some 1] 1 2 0 0 5).w_y[1]? = some (some (pc * av)) ∧
      (backtest_pairs id [1, 1] [1, 1] [some 1, some 1] [some 1, none]
        [some 1, some 1] 1 2 0 0 5).w_x[1]? = some (some (-pc * av * b)) :=
  C1_amended_a_always_defined id [1, 1] [1, 1] [some 1, some 1]
    [some 1, none] [some 1, some 1] 1 2 0 0 5 1 (by norm_num) (by norm_num)
    (by norm_num)

/-- C1 (counterexample): with `beta` missing at bar 1 but defined at bar
0, the normalising factor at bar 1 is the defined value `1/2` and the leg
weight `w_y` at bar 1 is `1/2 ≠ 0`, so a missing `beta` does not make `a`
undefined and does not force the weights to zero. -/
theorem C1_counterexample :
    ([some 1, none] : OSeries)[1]? = some none ∧
    (backtest_pairs id [1, 1] [1, 1] [some 1, some 1] [some 1, none]
      [some 1, some 1] 1 2 0 0 5).a[1]? = some (some (1/2)) ∧
    (backtest_pairs id [1, 1] [1, 1] [some 1, some 1] [some 1, none]
      [some 1, some 1] 1 2 0 0 5).w_y[1]? = some (some (1/2)) ∧
    ((1 : ℚ)/2 ≠ 0) := by
  refine ⟨by norm_num, ?_, ?_, by norm_num⟩ <;>
    norm_num [backtest_a, backtest_w_y, btA, btWy, btDenom, btBeta,
      btEffGross, btVol, btPos, btPosCapped, holdCap, holdCapGo, fillna,
      ffill, ffillGo, clip, maxQ, minQ, fabs, odiv, omul,
      List.getElem?_zipWith]

theorem fabs_zero : fabs 0 = 0 := by simp [fabs]

theorem diffS_zero (s : OSeries) (h : 0 < s.length) : (diffS s)[0]? = some none := by
  obtain ⟨v, hv⟩ : ∃ v, s[0]? = some v := ⟨_, List.getElem?_eq_getElem h⟩
  simp only [diffS, List.getElem?_zipWith, hv, getElem?_shift1_zero s h]
  cases v <;> simp [osub]

theorem diffS_succ (s : OSeries) (t : ℕ) (u v : Option ℚ) (h : t + 1 < s.length)
    (hu : s[t]? = some u) (hv : s[t + 1]? = some v) :
    (diffS s)[t + 1]? = some (osub v u) := by
  simp only [diffS, List.getElem?_zipWith, hv, getElem?_shift1_succ s t h, hu]

theorem logRet_zero (lg : ℚ → ℚ) (p : List ℚ) (h : 0 < p.length) :
    (logRet lg p)[0]? = some none := by
  apply diffS_zero
  simpa using h

/-- C2: for every bar after the first, the gross return is the previous
bar's leg weights applied to the current bar's per-leg log returns; the
first bar's leg returns are NaN, so its gross return is the NaN-filled
value `0`. -/
theorem C2_lagged_gross_return (lg : ℚ → ℚ) (y x : List ℚ) (ps bs vs : OSeries)
    (gl mgl fee slip : ℚ) (mhb : ℕ)
    (hx : x.length = y.length) (hps : ps.length = y.length)
    (hbs : bs.length = y.length) (hvs : vs.length = y.length) :
    (0 < y.length →
      (backtest_pairs lg y x ps bs vs gl mgl fee slip mhb).ret_gross[0]? =
        some 0 ∧
      (backtest_pairs lg y x ps bs vs gl mgl fee slip mhb).ry[0]? = some none ∧
      (backtest_pairs lg y x ps bs vs gl mgl fee slip mhb).rx[0]? = some none) ∧
    (∀ t, 1 ≤ t → t < y.length → ∀ wyv wxv ryv rxv : ℚ,
      (backtest_pairs lg y x ps bs vs gl mgl fee slip mhb).w_y[t - 1]? =
        some (some wyv) →
      (backtest_pairs lg y x ps bs vs gl mgl fee slip mhb).w_x[t - 1]? =
        some (some wxv) →
      (backtest_pairs lg y x ps bs vs gl mgl fee slip mhb).ry[t]? =
        some (some ryv) →
      (backtest_pairs lg y x ps bs vs gl mgl fee slip mhb).rx[t]? =
        some (some rxv) →
      (backtest_pairs lg y x ps bs vs gl mgl fee slip mhb).ret_gross[t]? =
        some (wyv * ryv + wxv * rxv)) := by
  have hlwy : (btWy gl mgl mhb ps bs vs).length = y.length := by
    rw [length_btWy, hps, hvs, hbs]; simp
  have hlwx : (btWx gl mgl mhb ps bs vs).length = y.length := by
    rw [length_btWx, hps, hvs, hbs]; simp
  constructor
  · intro hn
    refine ⟨?_, ?_, ?_⟩
    · rw [backtest_ret_gross]
      have h1 : (shift1 (btWy gl mgl mhb ps bs vs))[0]? = some none :=
        getElem?_shift1_zero _ (by rw [hlwy]; exact hn)
      have h2 : (shift1 (btWx gl mgl mhb ps bs vs))[0]? = some none :=
        getElem?_shift1_zero _ (by rw [hlwx]; exact hn)
      obtain ⟨r1, hr1⟩ : ∃ r1, (logRet lg y)[0]? = some r1 :=
        ⟨_, List.getElem?_eq_getElem (by rw [length_logRet]; exact hn)⟩
      obtain ⟨r2, hr2⟩ : ∃ r2, (logRet lg x)[0]? = some r2 :=
        ⟨_, List.getElem?_eq_getElem (by rw [length_logRet]; omega)⟩
      simp only [btRetGross, getElem?_fillna, List.getElem?_zipWith, h1, h2,
        hr1, hr2]
      simp [omul, oadd]
    · rw [backtest_ry]
      exact logRet_zero lg y hn
    · rw [backtest_rx]
      exact logRet_zero lg x (by omega)
  · intro t ht1 htn wyv wxv ryv rxv hwy hwx hry hrx
    rw [backtest_w_y] at hwy
    rw [backtest_w_x] at hwx
    rw [backtest_ry] at hry
    rw [backtest_rx] at hrx
    rw [backtest_ret_gross]
    obtain ⟨u, rfl⟩ : ∃ u, t = u + 1 := ⟨t - 1, by omega⟩
    have hwy' : (btWy gl mgl mhb ps bs vs)[u]? = some (some wyv) := by
      simpa using hwy
    have hwx' : (btWx gl mgl mhb ps bs vs)[u]? = some (some wxv) := by
      simpa using hwx
    have hshy : (shift1 (btWy gl mgl mhb ps bs vs))[u + 1]? = some (some wyv) := by
      rw [getElem?_shift1_succ _ _ (by omega)]
      exact hwy'
    have hshx : (shift1 (btWx gl mgl mhb ps bs vs))[u + 1]? = some (some wxv) := by
      rw [getElem?_shift1_succ _ _ (by omega)]
      exact hwx'
    simp only [btRetGross, getElem?_fillna, List.getElem?_zipWith, hshy, hshx,
      hry, hrx]
    simp [omul, oadd]

theorem C2_witness :
    (0 < ([1, 2] : List ℚ).length →
      (backtest_pairs id [1, 2] [1, 2] [some 1, some 1] [some 1, some 1]
        [some 1, some 1] 1 2 0 0 5).ret_gross[0]? = some 0 ∧
      (backtest_pairs id [1, 2] [1, 2] [some 1, some 1] [some 1, some 1]
        [some 1, some 1] 1 2 0 0 5).ry[0]? = some none ∧
      (backtest_pairs id [1, 2] [1, 2] [some 1, some 1] [some 1, some 1]
        [some 1, some 1] 1 2 0 0 5).rx[0]? = some none) ∧
    (∀ t, 1 ≤ t → t < ([1, 2] : List ℚ).length → ∀ wyv wxv ryv rxv : ℚ,
      (backtest_pairs id [1, 2] [1, 2] [some 1, some 1] [some 1, some 1]
        [some 1, some 1] 1 2 0 0 5).w_y[t - 1]? = some (some wyv) →
      (backtest_pairs id [1, 2] [1, 2] [some 1, some 1] [some 1, some 1]
        [some 1, some 1] 1 2 0 0 5).w_x[t - 1]? = some (some wxv) →
      (backtest_pairs id [1, 2] [1, 2] [some 1, some 1] [some 1, some 1]
        [some 1, some 1] 1 2 0 0 5).ry[t]? = some (some ryv) →
      (backtest_pairs id [1, 2] [1, 2] [some 1, some 1] [some 1, some 1]
        [some 1, some 1] 1 2 0 0 5).rx[t]? = some (some rxv) →
      (backtest_pairs id [1, 2] [1, 2] [some 1, some 1] [some 1, some 1]
        [some 1, some 1] 1 2 0 0 5).ret_gross[t]? =
        some (wyv * ryv + wxv * rxv)) :=
  C2_lagged_gross_return id [1, 2] [1, 2] [some 1, some 1] [some 1, some 1]
    [some 1, some 1] 1 2 0 0 5 (by norm_num) (by norm_num) (by norm_num)
    (by norm_num)

/-- C6 (amended): for every bar `t ≥ 1` the transaction cost is
`(fee_bps + slippage_bps) / 10000` times the sum of the absolute leg
weight changes, hence exactly zero when both weights are unchanged; the
first bar's cost is always zero, because the first `diff` is NaN and is
filled with zero rather than measured against a zero starting weight. -/
theorem C6_amended_turnover_cost (lg : ℚ → ℚ) (y x : List ℚ)
    (ps bs vs : OSeries) (gl mgl fee slip : ℚ) (mhb : ℕ)
    (hx : x.length = y.length) (hps : ps.length = y.length)
    (hbs : bs.length = y.length) (hvs : vs.length = y.length) :
    (0 < y.length →
      (backtest_pairs lg y x ps bs vs gl mgl fee slip mhb).cost[0]? = some 0) ∧
    (∀ t, 1 ≤ t → t < y.length → ∀ wy1 wy0 wx1 wx0 : ℚ,
      (backtest_pairs lg y x ps bs vs gl mgl fee slip mhb).w_y[t]? =
        some (some wy1) →
      (backtest_pairs lg y x ps bs vs gl mgl fee slip mhb).w_y[t - 1]? =
        some (some wy0) →
      (backtest_pairs lg y x ps bs vs gl mgl fee slip mhb).w_x[t]? =
        some (some wx1) →
      (backtest_pairs lg y x ps bs vs gl mgl fee slip mhb).w_x[t - 1]? =
        some (some wx0) →
      (backtest_pairs lg y x ps bs vs gl mgl fee slip mhb).cost[t]? =
        some ((fee + slip) / 10000 * (fabs (wy1 - wy0) + fabs (wx1 - wx0))) ∧
      (wy1 = wy0 → wx1 = wx0 →
        (backtest_pairs lg y x ps bs vs gl mgl fee slip mhb).cost[t]? =
          some 0)) := by
  have hlwy : (btWy gl mgl mhb ps bs vs).length = y.length := by
    rw [length_btWy, hps, hvs, hbs]; simp
  have hlwx : (btWx gl mgl mhb ps bs vs).length = y.length := by
    rw [length_btWx, hps, hvs, hbs]; simp
  constructor
  · intro hn
    rw [backtest_cost]
    have h1 : (diffS (btWy gl mgl mhb ps bs vs))[0]? = some none :=
      diffS_zero _ (by rw [hlwy]; exact hn)
    have h2 : (diffS (btWx gl mgl mhb ps bs vs))[0]? = some none :=
      diffS_zero _ (by rw [hlwx]; exact hn)
    simp only [btCost, btTurnover, getElem?_fillna, List.getElem?_zipWith,
      List.getElem?_map, h1, h2]
    simp [oadd]
  · intro t ht1 htn wy1 wy0 wx1 wx0 hwy1 hwy0 hwx1 hwx0
    rw [backtest_w_y] at hwy1 hwy0
    rw [backtest_w_x] at hwx1 hwx0
    rw [backtest_cost]
    obtain ⟨u, rfl⟩ : ∃ u, t = u + 1 := ⟨t - 1, by omega⟩
    have hwy0' : (btWy gl mgl mhb ps bs vs)[u]? = some (some wy0) := by
      simpa using hwy0
    have hwx0' : (btWx gl mgl mhb ps bs vs)[u]? = some (some wx0) := by
      simpa using hwx0
    have hdy : (diffS (btWy gl mgl mhb ps bs vs))[u + 1]? =
        some (some (wy1 - wy0)) := by
      rw [diffS_succ _ u _ _ (by omega) hwy0' hwy1]
      simp [osub]
    have hdx : (diffS (btWx gl mgl mhb ps bs vs))[u + 1]? =
        some (some (wx1 - wx0)) := by
      rw [diffS_succ _ u _ _ (by omega) hwx0' hwx1]
      simp [osub]
    have hcost : (btCost gl mgl fee slip mhb ps bs vs)[u + 1]? =
        some ((fee + slip) / 10000 * (fabs (wy1 - wy0) + fabs (wx1 - wx0))) := by
      simp only [btCost, btTurnover, getElem?_fillna, List.getElem?_zipWith,
        List.getElem?_map, hdy, hdx]
      simp [oadd]
    refine ⟨hcost, ?_⟩
    rintro rfl rfl
    rw [hcost]
    simp [sub_self, fabs_zero]

theorem C6_witness :
    (0 < ([1, 2] : List ℚ).length →
      (backtest_pairs id [1, 2] [1, 2] [some 1, some 1] [some 1, some 1]
        [some 1, some 1] 1 2 1 0 5).cost[0]? = some 0) ∧
    (∀ t, 1 ≤ t → t < ([1, 2] : List ℚ).length → ∀ wy1 wy0 wx1 wx0 : ℚ,
      (backtest_pairs id [1, 2] [1, 2] [some 1, some 1] [some 1, some 1]
        [some 1, some 1] 1 2 1 0 5).w_y[t]? = some (some wy1) →
      (backtest_pairs id [1, 2] [1, 2] [some 1, some 1] [some 1, some 1]
        [some 1, some 1] 1 2 1 0 5).w_y[t - 1]? = some (some wy0) →
      (backtest_pairs id [1, 2] [1, 2] [some 1, some 1] [some 1, some 1]
        [some 1, some 1] 1 2 1 0 5).w_x[t]? = some (some wx1) →
      (backtest_pairs id [1, 2] [1, 2] [some 1, some 1] [some 1, some 1]
        [some 1, some 1] 1 2 1 0 5).w_x[t - 1]? = some (some wx0) →
      (backtest_pairs id [1, 2] [1, 2] [some 1, some 1] [some 1, some 1]
        [some 1, some 1] 1 2 1 0 5).cost[t]? =
        some ((1 + 0) / 10000 * (fabs (wy1 - wy0) + fabs (wx1 - wx0))) ∧
      (wy1 = wy0 → wx1 = wx0 →
        (backtest_pairs id [1, 2] [1, 2] [some 1, some 1] [some 1, some 1]
          [some 1, some 1] 1 2 1 0 5).cost[t]? = some 0)) :=
  C6_amended_turnover_cost id [1, 2] [1, 2] [some 1, some 1] [some 1, some 1]
    [some 1, some 1] 1 2 1 0 5 (by norm_num) (by norm_num) (by norm_num)
    (by norm_num)

/-- C6 (counterexample): at bar 0 the weights are `1/2` and `-1/2`, yet
the charged cost is `0` — not the `(fee + slip)/10000 × (|w_y| + |w_x|)`
that measuring the first bar's turnover against an implicit zero starting
weight would give.  The first `diff` is NaN and `fillna(0)` zeroes it. -/
theorem C6_counterexample :
    (backtest_pairs id [1, 1] [1, 1] [some 1, some 1] [some 1, some 1]
      [some 1, some 1] 1 2 1 0 5).w_y[0]? = some (some ((1 : ℚ)/2)) ∧
    (backtest_pairs id [1, 1] [1, 1] [some 1, some 1] [some 1, some 1]
      [some 1, some 1] 1 2 1 0 5).w_x[0]? = some (some (-((1 : ℚ)/2))) ∧
    (backtest_pairs id [1, 1] [1, 1] [some 1, some 1] [some 1, some 1]
      [some 1, some 1] 1 2 1 0 5).cost[0]? = some 0 ∧
    ((1 : ℚ) + 0) / 10000 * (fabs ((1 : ℚ)/2 - 0) + fabs (-(1 : ℚ)/2 - 0)) ≠ 0 := by
  refine ⟨?_, ?_, ?_, ?_⟩ <;>
    norm_num [backtest_w_y, backtest_w_x, backtest_cost, btWy, btWx, btCost,
      btTurnover, diffS, shift1, btA, btDenom, btBeta, btEffGross, btVol,
      btPos, btPosCapped, holdCap, holdCapGo, fillna, ffill, ffillGo, clip,
      maxQ, minQ, fabs, odiv, omul, osub, oadd, List.getElem?_zipWith]

theorem csz_spread (sq lg : ℚ → ℚ) (ct : List ℚ → List ℚ → Option ℚ)
    (y x : List ℚ) (lb lz lc : ℕ) (thr : ℚ) (lv : ℕ) (tsv lo hi : ℚ) :
    (compute_spread_and_z sq lg ct y x lb lz lc thr lv tsv lo hi).spread =
      spreadSeries lg y x lb := rfl

theorem csz_z (sq lg : ℚ → ℚ) (ct : List ℚ → List ℚ → Option ℚ)
    (y x : List ℚ) (lb lz lc : ℕ) (thr : ℚ) (lv : ℕ) (tsv lo hi : ℚ) :
    (compute_spread_and_z sq lg ct y x lb lz lc thr lv tsv lo hi).z =
      zSeries sq lg y x lb lz := rfl

theorem csz_beta (sq lg : ℚ → ℚ) (ct : List ℚ → List ℚ → Option ℚ)
    (y x : List ℚ) (lb lz lc : ℕ) (thr : ℚ) (lv : ℕ) (tsv lo hi : ℚ) :
    (compute_spread_and_z sq lg ct y x lb lz lc thr lv tsv lo hi).beta =
      rolling_ols_beta (y.map lg) (x.map lg) lb := rfl

theorem csz_vol_scale (sq lg : ℚ → ℚ) (ct : List ℚ → List ℚ → Option ℚ)
    (y x : List ℚ) (lb lz lc : ℕ) (thr : ℚ) (lv : ℕ) (tsv lo hi : ℚ) :
    (compute_spread_and_z sq lg ct y x lb lz lc thr lv tsv lo hi).vol_scale =
      compute_vol_scale sq (spreadSeries lg y x lb) lv tsv lo hi := rfl

theorem csz_coint_p (sq lg : ℚ → ℚ) (ct : List ℚ → List ℚ → Option ℚ)
    (y x : List ℚ) (lb lz lc : ℕ) (thr : ℚ) (lv : ℕ) (tsv lo hi : ℚ) :
    (compute_spread_and_z sq lg ct y x lb lz lc thr lv tsv lo hi).coint_p =
      rolling_coint_pvalue ct (y.map lg) (x.map lg) lc := rfl

theorem window_length (w i : ℕ) (s : List α) (hi : i < s.length) :
    (window w i s).length = min w (i + 1) := by
  unfold window
  rw [List.length_drop, List.length_take]
  omega

theorem getElem?_window (w i : ℕ) (s : List α) (j : ℕ)
    (hj : i + 1 - w + j < i + 1) :
    (window w i s)[j]? = s[i + 1 - w + j]? := by
  unfold window
  rw [List.getElem?_drop]
  exact List.getElem?_take_of_lt hj

theorem getElem?_rollingO (w : ℕ) (f : List ℚ → Option ℚ) (s : OSeries)
    (i : ℕ) (hi : i < s.length) :
    (rollingO w f s)[i]? =
      some (if (window w i s).length = w ∧ (window w i s).all Option.isSome
        then f (window w i s).reduceOption else none) := by
  simp only [rollingO]
  rw [List.getElem?_map, List.getElem?_range hi]
  rfl

theorem getElem?_rollingT (w : ℕ) (f : List ℚ → Option ℚ) (s : List ℚ)
    (i : ℕ) (hi : i < s.length) :
    (rollingT w f s)[i]? =
      some (if (window w i s).length = w then f (window w i s) else none) := by
  simp only [rollingT]
  rw [List.getElem?_map, List.getElem?_range hi]
  rfl

theorem getElem?_rollingCovS (w : ℕ) (yl xl : List ℚ) (i : ℕ)
    (hi : i < (yl.zip xl).length) :
    (rollingCovS w yl xl)[i]? =
      some (if (window w i (yl.zip xl)).length = w
        then covS (window w i (yl.zip xl)) else none) := by
  simp only [rollingCovS]
  rw [List.getElem?_map, List.getElem?_range hi]
  rfl

theorem length_rolling_ols_beta (yl xl : List ℚ) (w : ℕ)
    (hx : xl.length = yl.length) :
    (rolling_ols_beta yl xl w).length = yl.length := by
  simp [rolling_ols_beta, rollingCovS, rollingT, hx]

/-- Before its window is full, the rolling OLS hedge ratio is missing. -/
theorem rolling_ols_beta_before (yl xl : List ℚ) (w i : ℕ)
    (hi : i < yl.length) (hx : xl.length = yl.length) (hiw : i + 1 < w) :
    (rolling_ols_beta yl xl w)[i]? = some none := by
  have hzl : (yl.zip xl).length = yl.length := by simp [hx]
  have hcov := getElem?_rollingCovS w yl xl i (by omega)
  have hvar := getElem?_rollingT w varS xl i (by omega)
  rw [if_neg (by rw [window_length w i _ (by omega)]; omega)] at hcov
  rw [if_neg (by rw [window_length w i _ (by omega)]; omega)] at hvar
  unfold rolling_ols_beta
  rw [List.getElem?_zipWith, hcov, hvar]
  simp [odiv]

/-- Once the window is full and the rolling variance of `x` is not
degenerate, the hedge ratio is defined. -/
theorem rolling_ols_beta_defined (yl xl : List ℚ) (w i : ℕ)
    (h2 : 2 ≤ w) (hi : i < yl.length) (hx : xl.length = yl.length)
    (hwi : w ≤ i + 1) (hnd : (rollingT w varS xl)[i]? ≠ some (some 0)) :
    ∃ b : ℚ, (rolling_ols_beta yl xl w)[i]? = some (some b) := by
  have hzl : (yl.zip xl).length = yl.length := by simp [hx]
  have hxi : i < xl.length := by omega
  have hwx : (window w i xl).length = w := by
    rw [window_length w i _ hxi]
    omega
  have hwz : (window w i (yl.zip xl)).length = w := by
    rw [window_length w i _ (by omega)]
    omega
  have hvar := getElem?_rollingT w varS xl i hxi
  rw [if_pos hwx] at hvar
  have hcov := getElem?_rollingCovS w yl xl i (by omega)
  rw [if_pos hwz] at hcov
  obtain ⟨V, hV⟩ : ∃ V, varS (window w i xl) = some V := by
    unfold varS
    rw [if_neg (by rw [hwx]; omega)]
    exact ⟨_, rfl⟩
  have hV0 : V ≠ 0 := by
    intro h0
    exact hnd (by rw [hvar, hV, h0])
  obtain ⟨C, hC⟩ : ∃ C, covS (window w i (yl.zip xl)) = some C := by
    unfold covS
    rw [if_neg (by rw [hwz]; omega)]
    exact ⟨_, rfl⟩
  refine ⟨C / V, ?_⟩
  unfold rolling_ols_beta
  rw [List.getElem?_zipWith, hcov, hvar, hC, hV]
  simp [odiv, hV0]

theorem length_spreadSeries (lg : ℚ → ℚ) (y x : List ℚ) (lb : ℕ)
    (hx : x.length = y.length) :
    (spreadSeries lg y x lb).length = y.length := by
  simp [spreadSeries, rolling_ols_beta, rollingCovS, rollingT, hx]

/-- The spread is missing wherever the hedge ratio's window is not full. -/
theorem spreadSeries_before (lg : ℚ → ℚ) (y x : List ℚ) (lb i : ℕ)
    (hi : i < y.length) (hx : x.length = y.length) (hiw : i + 1 < lb) :
    (spreadSeries lg y x lb)[i]? = some none := by
  have hb := rolling_ols_beta_before (y.map lg) (x.map lg) lb i (by simpa)
    (by simp [hx]) hiw
  obtain ⟨u, hu⟩ : ∃ u : ℚ, ((y.map lg).map some)[i]? = some (some u) := by
    refine ⟨lg (y.get ⟨i, hi⟩), ?_⟩
    rw [List.getElem?_map, List.getElem?_map, List.getElem?_eq_getElem hi]
    rfl
  obtain ⟨v, hv⟩ : ∃ v : ℚ, ((x.map lg).map some)[i]? = some (some v) := by
    refine ⟨lg (x.get ⟨i, by omega⟩), ?_⟩
    rw [List.getElem?_map, List.getElem?_map,
      List.getElem?_eq_getElem (show i < x.length by omega)]
    rfl
  unfold spreadSeries
  rw [List.getElem?_zipWith, hu, List.getElem?_zipWith, hb, hv]
  simp [osub, omul]

/-- The spread is defined wherever the hedge ratio is defined. -/
theorem spreadSeries_defined (lg : ℚ → ℚ) (y x : List ℚ) (lb i : ℕ)
    (h2 : 2 ≤ lb) (hi : i < y.length) (hx : x.length = y.length)
    (hwi : lb ≤ i + 1)
    (hnd : (rollingT lb varS (x.map lg))[i]? ≠ some (some 0)) :
    ∃ sv : ℚ, (spreadSeries lg y x lb)[i]? = some (some sv) := by
  obtain ⟨b, hb⟩ := rolling_ols_beta_defined (y.map lg) (x.map lg) lb i h2
    (by simpa) (by simp [hx]) hwi hnd
  obtain ⟨u, hu⟩ : ∃ u : ℚ, ((y.map lg).map some)[i]? = some (some u) := by
    refine ⟨lg (y.get ⟨i, hi⟩), ?_⟩
    rw [List.getElem?_map, List.getElem?_map, List.getElem?_eq_getElem hi]
    rfl
  obtain ⟨v, hv⟩ : ∃ v : ℚ, ((x.map lg).map some)[i]? = some (some v) := by
    refine ⟨lg (x.get ⟨i, by omega⟩), ?_⟩
    rw [List.getElem?_map, List.getElem?_map,
      List.getElem?_eq_getElem (show i < x.length by omega)]
    rfl
  refine ⟨u - b * v, ?_⟩
  unfold spreadSeries
  rw [List.getElem?_zipWith, hu, List.getElem?_zipWith, hb, hv]
  simp [osub, omul]

theorem zSeries_none_of_spread_none (sq lg : ℚ → ℚ) (y x : List ℚ)
    (lb lz i : ℕ) (hi : i < (spreadSeries lg y x lb).length)
    (hs : (spreadSeries lg y x lb)[i]? = some none) :
    (zSeries sq lg y x lb lz)[i]? = some none := by
  obtain ⟨mv, hm⟩ : ∃ mv,
      (rollingO lz (fun l => some (mean l)) (spreadSeries lg y x lb))[i]? =
        some mv :=
    ⟨_, List.getElem?_eq_getElem (by rw [length_rollingO]; exact hi)⟩
  obtain ⟨sv, hsd⟩ : ∃ sv,
      (rollingO lz (fun l => some (sq (varP l))) (spreadSeries lg y x lb))[i]? =
        some sv :=
    ⟨_, List.getElem?_eq_getElem (by rw [length_rollingO]; exact hi)⟩
  unfold zSeries
  rw [List.getElem?_zipWith, List.getElem?_zipWith, hs, hm, hsd]
  cases mv <;> cases sv <;> simp [osub, odiv]

theorem zSeries_none_of_std_none (sq lg : ℚ → ℚ) (y x : List ℚ)
    (lb lz i : ℕ) (hi : i < (spreadSeries lg y x lb).length)
    (hsd : (rollingO lz (fun l => some (sq (varP l)))
      (spreadSeries lg y x lb))[i]? = some none) :
    (zSeries sq lg y x lb lz)[i]? = some none := by
  obtain ⟨u, hu⟩ : ∃ u, (spreadSeries lg y x lb)[i]? = some u :=
    ⟨_, List.getElem?_eq_getElem hi⟩
  obtain ⟨mv, hm⟩ : ∃ mv,
      (rollingO lz (fun l => some (mean l)) (spreadSeries lg y x lb))[i]? =
        some mv :=
    ⟨_, List.getElem?_eq_getElem (by rw [length_rollingO]; exact hi)⟩
  unfold zSeries
  rw [List.getElem?_zipWith, List.getElem?_zipWith, hu, hm, hsd]
  cases u <;> cases mv <;> simp [osub, odiv]

/-- C7 (amended): the hedge ratio and the z-score are missing at every
index before their rolling windows hold a full window of defined
observations and, barring degenerate variance, defined afterwards; the
sizing multiplier, by contrast, is never missing — before its window is
full the NaN ratio is filled with zero and clipped, so it equals
`clip(0)` (i.e. `min_scale` for `0 ≤ min_scale ≤ max_scale`). -/
theorem C7_amended_window_warmup :
    (∀ (yl xl : List ℚ) (w i : ℕ), 2 ≤ w → xl.length = yl.length →
      i < yl.length →
      (i + 1 < w → (rolling_ols_beta yl xl w)[i]? = some none) ∧
      (w ≤ i + 1 → (rollingT w varS xl)[i]? ≠ some (some 0) →
        ∃ b : ℚ, (rolling_ols_beta yl xl w)[i]? = some (some b))) ∧
    (∀ (sq lg : ℚ → ℚ) (ct : List ℚ → List ℚ → Option ℚ) (y x : List ℚ)
      (lb lz lc : ℕ) (thr : ℚ) (lv : ℕ) (tsv lo hi : ℚ) (i : ℕ),
      2 ≤ lb → 1 ≤ lz → x.length = y.length → i < y.length →
      (∀ j, j < y.length → lb ≤ j + 1 →
        (rollingT lb varS (x.map lg))[j]? ≠ some (some 0)) →
      (i + 2 < lb + lz →
        (compute_spread_and_z sq lg ct y x lb lz lc thr lv tsv lo hi).z[i]? =
          some none) ∧
      (lb + lz ≤ i + 2 →
        (rollingO lz (fun l => some (sq (varP l)))
          (spreadSeries lg y x lb))[i]? ≠ some (some 0) →
        ∃ q : ℚ,
          (compute_spread_and_z sq lg ct y x lb lz lc thr lv tsv lo hi).z[i]? =
            some (some q))) ∧
    (∀ (sq : ℚ → ℚ) (spread : OSeries) (w : ℕ) (target lo hi : ℚ) (i : ℕ),
      i < spread.length → i + 1 < w →
      (compute_vol_scale sq spread w target lo hi)[i]? = some (clip lo hi 0)) := by
  refine ⟨?_, ?_, ?_⟩
  · intro yl xl w i h2 hx hi
    exact ⟨fun hiw => rolling_ols_beta_before yl xl w i hi hx hiw,
      fun hwi hnd => rolling_ols_beta_defined yl xl w i h2 hi hx hwi hnd⟩
  · intro sq lg ct y x lb lz lc thr lv tsv lo hi i hlb hlz hx hin hnd
    rw [csz_z]
    have hiS : i < (spreadSeries lg y x lb).length := by
      rw [length_spreadSeries lg y x lb hx]
      exact hin
    constructor
    · intro hwarm
      rcases Nat.lt_or_ge (i + 1) lb with hlt | hge
      · exact zSeries_none_of_spread_none sq lg y x lb lz i hiS
          (spreadSeries_before lg y x lb i hin hx hlt)
      · refine zSeries_none_of_std_none sq lg y x lb lz i hiS ?_
        rw [getElem?_rollingO _ _ _ i hiS, if_neg]
        rintro ⟨hlen, hall⟩
        rw [window_length _ _ _ hiS] at hlen
        have hlzle : lz ≤ i + 1 := by omega
        have h0 : (window lz i (spreadSeries lg y x lb))[0]? =
            (spreadSeries lg y x lb)[i + 1 - lz]? := by
          have hw0 := getElem?_window lz i (spreadSeries lg y x lb) 0 (by omega)
          simpa using hw0
        have hnan : (spreadSeries lg y x lb)[i + 1 - lz]? = some none :=
          spreadSeries_before lg y x lb (i + 1 - lz) (by omega) hx (by omega)
        have hmem : (none : Option ℚ) ∈ window lz i (spreadSeries lg y x lb) := by
          rw [List.mem_iff_getElem?]
          exact ⟨0, by rw [h0, hnan]⟩
        have hcontra := List.all_eq_true.mp hall none hmem
        simp at hcontra
    · intro hfull hstd
      have hwin : (window lz i (spreadSeries lg y x lb)).length = lz := by
        rw [window_length _ _ _ hiS]
        omega
      have hSdef : ∀ j, j < (window lz i (spreadSeries lg y x lb)).length →
          ∃ sv : ℚ, (window lz i (spreadSeries lg y x lb))[j]? =
            some (some sv) := by
        intro j hj
        rw [hwin] at hj
        have hjw : i + 1 - lz + j < i + 1 := by omega
        rw [getElem?_window lz i _ j hjw]
        exact spreadSeries_defined lg y x lb (i + 1 - lz + j) hlb (by omega) hx
          (by omega) (hnd _ (by omega) (by omega))
      have hall : (window lz i (spreadSeries lg y x lb)).all Option.isSome =
          true := by
        rw [List.all_eq_true]
        intro a ha
        obtain ⟨j, hj⟩ := List.mem_iff_getElem?.mp ha
        have hjl : j < (window lz i (spreadSeries lg y x lb)).length :=
          (List.getElem?_eq_some_iff.mp hj).1
        obtain ⟨sv, hsv⟩ := hSdef j hjl
        rw [hj] at hsv
        rw [Option.some_inj.mp hsv]
        rfl
      have hsd := getElem?_rollingO lz (fun l => some (sq (varP l))) _ i hiS
      rw [if_pos ⟨hwin, hall⟩] at hsd
      have hm := getElem?_rollingO lz (fun l => some (mean l)) _ i hiS
      rw [if_pos ⟨hwin, hall⟩] at hm
      have hσ0 : sq (varP (window lz i (spreadSeries lg y x lb)).reduceOption) ≠ 0 := by
        intro h0
        exact hstd (by rw [hsd]; simp [h0])
      obtain ⟨sv, hsv⟩ := spreadSeries_defined lg y x lb i hlb hin hx
        (by omega) (hnd i hin (by omega))
      refine ⟨(sv - mean (window lz i (spreadSeries lg y x lb)).reduceOption) /
        sq (varP (window lz i (spreadSeries lg y x lb)).reduceOption), ?_⟩
      unfold zSeries
      rw [List.getElem?_zipWith, List.getElem?_zipWith, hsv, hm, hsd]
      simp [osub, odiv, hσ0]
  · intro sq spread w target lo hi i hisp hiw
    have hid : i < (diffS spread).length := by
      rw [length_diffS]
      exact hisp
    have hvol := getElem?_rollingO w (fun l => some (sq (varP l)))
      (diffS spread) i hid
    rw [if_neg (by
      rintro ⟨hlen, _⟩
      rw [window_length w i _ hid] at hlen
      omega)] at hvol
    simp only [compute_vol_scale]
    rw [List.getElem?_map, getElem?_fillna, List.getElem?_map, hvol]
    simp [odiv]

theorem C7_witness :
    ((rolling_ols_beta [1, 2] [1, 3] 2)[0]? = some none) ∧
    (∃ b : ℚ, (rolling_ols_beta [1, 2] [1, 3] 2)[1]? = some (some b)) ∧
    ((compute_spread_and_z id id (fun _ _ => none) [1, 2, 4] [1, 3, 4] 2 2 1
      (1/20) 1 1 0 3).z[0]? = some none) ∧
    (∃ q : ℚ, (compute_spread_and_z id id (fun _ _ => none) [1, 2, 4]
      [1, 3, 4] 2 2 1 (1/20) 1 1 0 3).z[2]? = some (some q)) ∧
    ((compute_vol_scale id [some 1, some 2] 2 1 0 3)[0]? = some (clip 0 3 0)) := by
  refine ⟨?_, ?_, ?_, ?_, ?_⟩
  · exact (C7_amended_window_warmup.1 [1, 2] [1, 3] 2 0 (by norm_num)
      (by norm_num) (by norm_num)).1 (by norm_num)
  · exact (C7_amended_window_warmup.1 [1, 2] [1, 3] 2 1 (by norm_num)
      (by norm_num) (by norm_num)).2 (by norm_num)
      (by norm_num [rollingT, window, varS, mean, List.range_succ])
  · exact (C7_amended_window_warmup.2.1 id id (fun _ _ => none) [1, 2, 4]
      [1, 3, 4] 2 2 1 (1/20) 1 1 0 3 0 (by norm_num) (by norm_num)
      (by norm_num) (by norm_num)
      (by
        intro j hj1 hj2
        simp only [List.map_id]
        have hj3 : j < 3 := by simpa using hj1
        have hj0 : 1 ≤ j := by omega
        interval_cases j <;>
          norm_num [rollingT, window, varS, mean, List.range_succ])).1
      (by norm_num)
  · exact (C7_amended_window_warmup.2.1 id id (fun _ _ => none) [1, 2, 4]
      [1, 3, 4] 2 2 1 (1/20) 1 1 0 3 2 (by norm_num) (by norm_num)
      (by norm_num) (by norm_num)
      (by
        intro j hj1 hj2
        simp only [List.map_id]
        have hj3 : j < 3 := by simpa using hj1
        have hj0 : 1 ≤ j := by omega
        interval_cases j <;>
          norm_num [rollingT, window, varS, mean, List.range_succ])).2
      (by norm_num)
      (by norm_num [rollingO, spreadSeries, rolling_ols_beta, rollingCovS,
        rollingT, window, varS, covS, varP, mean, odiv, osub, omul,
        List.range_succ, List.zipWith, List.reduceOption,
        List.filterMap_cons, List.filterMap_nil])
  · exact C7_amended_window_warmup.2.2 id [some 1, some 2] 2 1 0 3 0
      (by norm_num) (by norm_num)

/-- C7 (counterexample): at index 0, before the sizing window of length 2
is full, `compute_vol_scale` returns the defined value `1/2` — exactly
`min_scale` — rather than a missing value, so the sizing multiplier is
not missing before its window is full, contradicting the claim as
stated. -/
theorem C7_counterexample :
    (compute_vol_scale id [some 1, some 2, some 4] 2 1 (1/2) 3)[0]? =
      some (1/2) := by
  norm_num [compute_vol_scale, rollingO, diffS, shift1, window, fillna, clip,
    maxQ, minQ, odiv, osub, varP, mean, List.range_succ, List.zipWith,
    List.getElem?_zipWith]

theorem varS_replicate (b : ℚ) (w : ℕ) :
    varS (List.replicate w b) = if w < 2 then none else some 0 := by
  unfold varS
  rw [List.length_replicate]
  split_ifs with h
  · rfl
  · have hw : (w : ℚ) ≠ 0 := Nat.cast_ne_zero.mpr (by omega)
    have hmean : mean (List.replicate w b) = b := by
      unfold mean
      rw [List.sum_replicate, List.length_replicate, nsmul_eq_mul]
      field_simp
    rw [hmean, List.map_replicate]
    simp [List.sum_replicate]

/-- On constant series every full window has zero variance, so the
rolling hedge ratio is missing at every single index. -/
theorem rolling_ols_beta_const (a b : ℚ) (n w i : ℕ) (hi : i < n) :
    (rolling_ols_beta (List.replicate n a) (List.replicate n b) w)[i]? =
      some none := by
  rcases Nat.lt_or_ge (i + 1) w with hlt | hge
  · exact rolling_ols_beta_before _ _ w i (by simpa) (by simp) hlt
  · have hxl : i < (List.replicate n b : List ℚ).length := by simpa
    have hwin : window w i (List.replicate n b) = List.replicate w b := by
      unfold window
      rw [List.take_replicate, List.drop_replicate]
      congr 1
      omega
    have hvar := getElem?_rollingT w varS (List.replicate n b) i hxl
    rw [hwin] at hvar
    rw [if_pos (by simp)] at hvar
    rw [varS_replicate] at hvar
    obtain ⟨cv, hcov⟩ : ∃ cv,
        (rollingCovS w (List.replicate n a) (List.replicate n b))[i]? =
          some cv := by
      refine ⟨_, List.getElem?_eq_getElem ?_⟩
      simp [rollingCovS]
      omega
    unfold rolling_ols_beta
    rw [List.getElem?_zipWith, hcov, hvar]
    rcases cv with _ | cval
    · split_ifs <;> simp [odiv]
    · split_ifs <;> simp [odiv]

theorem spreadSeries_const (lg : ℚ → ℚ) (c d : ℚ) (n lb i : ℕ) (hi : i < n) :
    (spreadSeries lg (List.replicate n c) (List.replicate n d) lb)[i]? =
      some none := by
  have hb : (rolling_ols_beta ((List.replicate n c).map lg)
      ((List.replicate n d).map lg) lb)[i]? = some none := by
    rw [List.map_replicate, List.map_replicate]
    exact rolling_ols_beta_const (lg c) (lg d) n lb i hi
  unfold spreadSeries
  rw [List.getElem?_zipWith, List.getElem?_zipWith, hb]
  simp [List.getElem?_replicate, hi, osub, omul]

theorem length_zSeries (sq lg : ℚ → ℚ) (y x : List ℚ) (lb lz : ℕ)
    (hx : x.length = y.length) :
    (zSeries sq lg y x lb lz).length = y.length := by
  simp [zSeries, length_rollingO, length_spreadSeries lg y x lb hx]

/-- On constant price series the z-score column is NaN at every index. -/
theorem zSeries_const (sq lg : ℚ → ℚ) (c d : ℚ) (n lb lz : ℕ) :
    zSeries sq lg (List.replicate n c) (List.replicate n d) lb lz =
      List.replicate n none := by
  apply List.ext_getElem?
  intro i
  rcases Nat.lt_or_ge i n with hi | hi
  · have hiS : i < (spreadSeries lg (List.replicate n c)
        (List.replicate n d) lb).length := by
      rw [length_spreadSeries _ _ _ _ (by simp)]
      simpa
    rw [zSeries_none_of_spread_none sq lg _ _ lb lz i hiS
      (spreadSeries_const lg c d n lb i hi)]
    rw [List.getElem?_replicate_of_lt hi]
  · rw [List.getElem?_eq_none, List.getElem?_eq_none]
    · simp
      omega
    · rw [length_zSeries _ _ _ _ _ _ (by simp)]
      simpa using hi

theorem posGo_replicate_none (en ex st : ℚ) (n : ℕ) :
    posGo en ex st (List.replicate n none) = List.replicate n 0 := by
  induction n generalizing st with
  | zero => rfl
  | succ k ih => simp [List.replicate_succ, posGo_cons, posStep, ih]

theorem fillna_replicate_zero (n : ℕ) :
    fillna 0 (List.replicate n (some 0)) = List.replicate n 0 := by
  simp [fillna]

theorem holdCapGo_replicate_zero (m : ℕ) (n : ℕ) :
    ∀ (hold : ℕ) (prev : ℚ),
      holdCapGo m hold prev (List.replicate n 0) = List.replicate n 0 := by
  induction n with
  | zero => intro hold prev; rfl
  | succ k ih =>
    intro hold prev
    rw [List.replicate_succ, holdCapGo_cons_z m hold prev 0 _ rfl, ih]

theorem cumprodGo_replicate_one (n : ℕ) :
    ∀ acc : ℚ, cumprodGo acc (List.replicate n 1) = List.replicate n acc := by
  induction n with
  | zero => intro acc; rfl
  | succ k ih =>
    intro acc
    rw [List.replicate_succ, List.replicate_succ]
    unfold cumprodGo
    rw [mul_one, ih]

theorem length_compute_vol_scale (sq : ℚ → ℚ) (spread : OSeries) (w : ℕ)
    (target lo hi : ℚ) :
    (compute_vol_scale sq spread w target lo hi).length = spread.length := by
  simp [compute_vol_scale, fillna, length_rollingO, length_diffS]

theorem length_rolling_coint_pvalue (ct : List ℚ → List ℚ → Option ℚ)
    (ly lx : List ℚ) (w : ℕ) :
    (rolling_coint_pvalue ct ly lx w).length = ly.length := by
  simp [rolling_coint_pvalue]

theorem clip_zero_of_bounds (lo hi : ℚ) (h0 : 0 ≤ lo) (hlh : lo ≤ hi) :
    clip lo hi 0 = lo := by
  unfold clip
  rw [maxQ_eq_max, minQ_eq_min, max_eq_right h0, min_eq_left hlh]

/-- Filtering an all-flat position series returns an all-flat series,
whatever the p-values are. -/
theorem filter_flat (pvals : OSeries) (thr : ℚ) (n : ℕ)
    (hl : pvals.length = n) :
    apply_coint_regime_filter (List.replicate n (some 0)) pvals thr =
      List.replicate n (some 0) := by
  apply List.ext_getElem?
  intro i
  rcases Nat.lt_or_ge i n with hi | hi
  · obtain ⟨pv, hpv⟩ : ∃ pv, pvals[i]? = some pv :=
    ⟨_, List.getElem?_eq_getElem (by omega)⟩
    unfold apply_coint_regime_filter
    rw [List.getElem?_zipWith, hpv]
    simp [List.getElem?_replicate, hi]
  · rw [List.getElem?_eq_none, List.getElem?_eq_none]
    · simp
      omega
    · simp [apply_coint_regime_filter]
      omega

theorem logRet_succ_defined (lg : ℚ → ℚ) (p : List ℚ) (i : ℕ)
    (h : i + 1 < p.length) :
    ∃ rv : ℚ, (logRet lg p)[i + 1]? = some (some rv) := by
  obtain ⟨u, hu⟩ : ∃ u : ℚ, ((p.map lg).map some)[i]? = some (some u) := by
    refine ⟨lg (p.get ⟨i, by omega⟩), ?_⟩
    rw [List.getElem?_map, List.getElem?_map,
      List.getElem?_eq_getElem (show i < p.length by omega)]
    rfl
  obtain ⟨v, hv⟩ : ∃ v : ℚ, ((p.map lg).map some)[i + 1]? = some (some v) := by
    refine ⟨lg (p.get ⟨i + 1, h⟩), ?_⟩
    rw [List.getElem?_map, List.getElem?_map, List.getElem?_eq_getElem h]
    rfl
  refine ⟨v - u, ?_⟩
  unfold logRet
  rw [diffS_succ _ i _ _ (by simpa using h) hu hv]
  rfl

theorem zipWith_replicate_same (f : ℚ → ℚ → ℚ) (a b : ℚ) (n : ℕ) :
    List.zipWith f (List.replicate n a) (List.replicate n b) =
      List.replicate n (f a b) := by
  induction n with
  | zero => rfl
  | succ k ih => simp [List.replicate_succ, ih]

/-- When the spread itself is NaN everywhere, the sizing scale is the
clamp of zero at every in-range index. -/
theorem compute_vol_scale_all_nan (sq : ℚ → ℚ) (spread : OSeries) (w : ℕ)
    (target lo hi : ℚ) (hw : 1 ≤ w)
    (hnan : ∀ i, i < spread.length → spread[i]? = some none) (t : ℕ)
    (ht : t < spread.length) :
    (compute_vol_scale sq spread w target lo hi)[t]? = some (clip lo hi 0) := by
  have hd : ∀ j, j < (diffS spread).length → (diffS spread)[j]? = some none := by
    intro j hj
    rw [length_diffS] at hj
    cases j with
    | zero => exact diffS_zero spread hj
    | succ u =>
      have hu := hnan u (by omega)
      have hv := hnan (u + 1) hj
      rw [diffS_succ spread u none none hj hu hv]
      rfl
  have hid : t < (diffS spread).length := by
    rw [length_diffS]
    exact ht
  have hvol := getElem?_rollingO w (fun l => some (sq (varP l)))
    (diffS spread) t hid
  rw [if_neg] at hvol
  · simp only [compute_vol_scale]
    rw [List.getElem?_map, getElem?_fillna, List.getElem?_map, hvol]
    simp [odiv]
  · rintro ⟨hlen, hall⟩
    rw [window_length _ _ _ hid] at hlen
    have hjw : t + 1 - w + 0 < t + 1 := by omega
    have h0 : (window w t (diffS spread))[0]? = (diffS spread)[t + 1 - w]? := by
      simpa using getElem?_window w t (diffS spread) 0 hjw
    have hodd : (diffS spread)[t + 1 - w]? = some none := hd _ (by omega)
    have hmem : (none : Option ℚ) ∈ window w t (diffS spread) := by
      rw [List.mem_iff_getElem?]
      exact ⟨0, by rw [h0, hodd]⟩
    have hcontra := List.all_eq_true.mp hall none hmem
    simp at hcontra

/-- With an all-flat position series over constant prices the backtest
books zero gross return and zero cost at every bar, so the equity curve
is constant at 1. -/
theorem backtest_flat_equity (lg : ℚ → ℚ) (c d : ℚ) (n : ℕ) (bs vs : OSeries)
    (hbs : bs.length = n) (hvs : vs.length = n) (gl mgl fee slip : ℚ)
    (mhb : ℕ) :
    (backtest_pairs lg (List.replicate n c) (List.replicate n d)
      (List.replicate n (some 0)) bs vs gl mgl fee slip mhb).equity =
      List.replicate n 1 := by
  have hcap : btPosCapped mhb (List.replicate n (some 0)) =
      List.replicate n 0 := by
    unfold btPosCapped btPos holdCap
    rw [fillna_replicate_zero, holdCapGo_replicate_zero]
  have hwyl : (btWy gl mgl mhb (List.replicate n (some 0)) bs vs).length = n := by
    rw [length_btWy]
    simp [hbs, hvs]
  have hwxl : (btWx gl mgl mhb (List.replicate n (some 0)) bs vs).length = n := by
    rw [length_btWx]
    simp [hbs, hvs]
  have hwy : btWy gl mgl mhb (List.replicate n (some 0)) bs vs =
      List.replicate n (some (0 : ℚ)) := by
    apply List.ext_getElem?
    intro i
    rcases Nat.lt_or_ge i n with hi | hi
    · obtain ⟨pc, av, hpc, ha, hw⟩ := btWy_spec gl mgl mhb
        (List.replicate n (some 0)) bs vs i (by simpa) (by omega) (by omega)
      rw [hcap, List.getElem?_replicate_of_lt hi] at hpc
      have hpc0 : pc = 0 := (Option.some_inj.mp hpc).symm
      rw [hw, hpc0, zero_mul, List.getElem?_replicate_of_lt hi]
    · rw [List.getElem?_eq_none (by omega), List.getElem?_eq_none (by simpa)]
  have hwx : btWx gl mgl mhb (List.replicate n (some 0)) bs vs =
      List.replicate n (some (0 : ℚ)) := by
    apply List.ext_getElem?
    intro i
    rcases Nat.lt_or_ge i n with hi | hi
    · obtain ⟨pc, av, b, hpc, ha, hbb, hw⟩ := btWx_spec gl mgl mhb
        (List.replicate n (some 0)) bs vs i (by simpa) (by omega) (by omega)
      rw [hcap, List.getElem?_replicate_of_lt hi] at hpc
      have hpc0 : pc = 0 := (Option.some_inj.mp hpc).symm
      have hval : -pc * av * b = 0 := by
        rw [hpc0]
        ring
      rw [hw, hval, List.getElem?_replicate_of_lt hi]
    · rw [List.getElem?_eq_none (by omega), List.getElem?_eq_none (by simpa)]
  have hrg : btRetGross lg (List.replicate n c) (List.replicate n d) gl mgl
      mhb (List.replicate n (some 0)) bs vs = List.replicate n (0 : ℚ) := by
    apply List.ext_getElem?
    intro i
    rcases Nat.lt_or_ge i n with hi | hi
    · rw [List.getElem?_replicate_of_lt hi]
      rcases i with _ | u
      · have h1 : (shift1 (btWy gl mgl mhb (List.replicate n (some 0)) bs vs))[0]? =
            some none := getElem?_shift1_zero _ (by omega)
        have h2 : (shift1 (btWx gl mgl mhb (List.replicate n (some 0)) bs vs))[0]? =
            some none := getElem?_shift1_zero _ (by omega)
        obtain ⟨r1, hr1⟩ : ∃ r1, (logRet lg (List.replicate n c))[0]? = some r1 :=
          ⟨_, List.getElem?_eq_getElem (by rw [length_logRet]; simpa)⟩
        obtain ⟨r2, hr2⟩ : ∃ r2, (logRet lg (List.replicate n d))[0]? = some r2 :=
          ⟨_, List.getElem?_eq_getElem (by rw [length_logRet]; simpa)⟩
        simp only [btRetGross, getElem?_fillna, List.getElem?_zipWith, h1, h2,
          hr1, hr2]
        simp [omul, oadd]
      · have hsh1 : (shift1 (btWy gl mgl mhb (List.replicate n (some 0)) bs vs))[u + 1]? =
            some (some 0) := by
          rw [getElem?_shift1_succ _ _ (by omega), hwy,
            List.getElem?_replicate_of_lt (by omega)]
        have hsh2 : (shift1 (btWx gl mgl mhb (List.replicate n (some 0)) bs vs))[u + 1]? =
            some (some 0) := by
          rw [getElem?_shift1_succ _ _ (by omega), hwx,
            List.getElem?_replicate_of_lt (by omega)]
        obtain ⟨r1, hr1⟩ := logRet_succ_defined lg (List.replicate n c) u
          (by simpa using hi)
        obtain ⟨r2, hr2⟩ := logRet_succ_defined lg (List.replicate n d) u
          (by simpa using hi)
        simp only [btRetGross, getElem?_fillna, List.getElem?_zipWith, hsh1,
          hsh2, hr1, hr2]
        simp [omul, oadd]
    · have hL : (btRetGross lg (List.replicate n c) (List.replicate n d) gl
          mgl mhb (List.replicate n (some 0)) bs vs).length ≤ i := by
        simp only [btRetGross, fillna, List.length_map, List.length_zipWith,
          length_shift1, length_logRet, hwyl, hwxl, List.length_replicate]
        omega
      rw [List.getElem?_eq_none hL,
        List.getElem?_eq_none (show (List.replicate n (0 : ℚ)).length ≤ i by
          simpa using hi)]
  have hto : btTurnover gl mgl mhb (List.replicate n (some 0)) bs vs =
      List.replicate n (0 : ℚ) := by
    apply List.ext_getElem?
    intro i
    rcases Nat.lt_or_ge i n with hi | hi
    · rw [List.getElem?_replicate_of_lt hi]
      rcases i with _ | u
      · have h1 : (diffS (btWy gl mgl mhb (List.replicate n (some 0)) bs vs))[0]? =
            some none := diffS_zero _ (by omega)
        have h2 : (diffS (btWx gl mgl mhb (List.replicate n (some 0)) bs vs))[0]? =
            some none := diffS_zero _ (by omega)
        simp only [btTurnover, getElem?_fillna, List.getElem?_zipWith,
          List.getElem?_map, h1, h2]
        simp [oadd]
      · have hwyu : (btWy gl mgl mhb (List.replicate n (some 0)) bs vs)[u]? =
            some (some 0) := by
          rw [hwy, List.getElem?_replicate_of_lt (by omega)]
        have hwyu1 : (btWy gl mgl mhb (List.replicate n (some 0)) bs vs)[u + 1]? =
            some (some 0) := by
          rw [hwy, List.getElem?_replicate_of_lt (by omega)]
        have hwxu : (btWx gl mgl mhb (List.replicate n (some 0)) bs vs)[u]? =
            some (some 0) := by
          rw [hwx, List.getElem?_replicate_of_lt (by omega)]
        have hwxu1 : (btWx gl mgl mhb (List.replicate n (some 0)) bs vs)[u + 1]? =
            some (some 0) := by
          rw [hwx, List.getElem?_replicate_of_lt (by omega)]
        have h1 := diffS_succ _ u _ _ (by omega) hwyu hwyu1
        have h2 := diffS_succ _ u _ _ (by omega) hwxu hwxu1
        simp only [btTurnover, getElem?_fillna, List.getElem?_zipWith,
          List.getElem?_map, h1, h2]
        simp [osub, oadd, fabs_zero]
    · have hL : (btTurnover gl mgl mhb (List.replicate n (some 0)) bs
          vs).length ≤ i := by
        simp only [btTurnover, fillna, List.length_map, List.length_zipWith,
          length_diffS, hwyl, hwxl]
        omega
      rw [List.getElem?_eq_none hL,
        List.getElem?_eq_none (show (List.replicate n (0 : ℚ)).length ≤ i by
          simpa using hi)]
  have hcost : btCost gl mgl fee slip mhb (List.replicate n (some 0)) bs vs =
      List.replicate n (0 : ℚ) := by
    unfold btCost
    rw [hto, List.map_replicate, mul_zero]
  have hrn : btRetNet lg (List.replicate n c) (List.replicate n d) gl mgl fee
      slip mhb (List.replicate n (some 0)) bs vs = List.replicate n (0 : ℚ) := by
    unfold btRetNet
    rw [hrg, hcost, zipWith_replicate_same, sub_zero]
  rw [backtest_equity]
  unfold btEquity cumprod
  rw [hrn, List.map_replicate, add_zero, cumprodGo_replicate_one]

theorem run_pipeline_eq (sq lg : ℚ → ℚ) (ct : List ℚ → List ℚ → Option ℚ)
    (y x : List ℚ) (lb lz lc : ℕ) (thr : ℚ) (lv : ℕ) (tsv lo hi : ℚ)
    (en ex gl mgl fee slip : ℚ) (mhb : ℕ) :
    run_pipeline sq lg ct y x lb lz lc thr lv tsv lo hi en ex gl mgl fee slip
      mhb =
      backtest_pairs lg y x
        (apply_coint_regime_filter
          ((generate_positions
            (compute_spread_and_z sq lg ct y x lb lz lc thr lv tsv lo hi).z
            en ex).map some)
          (compute_spread_and_z sq lg ct y x lb lz lc thr lv tsv lo hi).coint_p
          thr)
        (compute_spread_and_z sq lg ct y x lb lz lc thr lv tsv lo hi).beta
        ((compute_spread_and_z sq lg ct y x lb lz lc thr lv tsv lo
          hi).vol_scale.map some)
        gl mgl fee slip mhb := rfl

/-- C9: with constant positive prices in both legs, the pipeline yields a
sizing multiplier equal to exactly `min_scale` at every bar, a NaN
z-score at every bar, a flat (zero) position at every bar, and an equity
curve identically equal to 1 at every bar. -/
theorem C9_constant_prices (sq lg : ℚ → ℚ) (ct : List ℚ → List ℚ → Option ℚ)
    (c d : ℚ) (n : ℕ) (hc : 0 < c) (hd : 0 < d) (lb lz lc : ℕ) (thr : ℚ)
    (lv : ℕ) (hlv : 1 ≤ lv) (tsv lo hi : ℚ) (hlo : 0 ≤ lo) (hlohi : lo ≤ hi)
    (en ex gl mgl fee slip : ℚ) (mhb : ℕ) (t : ℕ) (ht : t < n) :
    (compute_spread_and_z sq lg ct (List.replicate n c) (List.replicate n d)
      lb lz lc thr lv tsv lo hi).vol_scale[t]? = some lo ∧
    (compute_spread_and_z sq lg ct (List.replicate n c) (List.replicate n d)
      lb lz lc thr lv tsv lo hi).z[t]? = some none ∧
    (apply_coint_regime_filter
      ((generate_positions (compute_spread_and_z sq lg ct (List.replicate n c)
        (List.replicate n d) lb lz lc thr lv tsv lo hi).z en ex).map some)
      (compute_spread_and_z sq lg ct (List.replicate n c) (List.replicate n d)
        lb lz lc thr lv tsv lo hi).coint_p thr)[t]? = some (some 0) ∧
    (run_pipeline sq lg ct (List.replicate n c) (List.replicate n d) lb lz lc
      thr lv tsv lo hi en ex gl mgl fee slip mhb).equity[t]? = some 1 := by
  have hxy : (List.replicate n d : List ℚ).length =
      (List.replicate n c : List ℚ).length := by simp
  have hSlen : (spreadSeries lg (List.replicate n c) (List.replicate n d)
      lb).length = n := by
    rw [length_spreadSeries _ _ _ _ hxy]
    simp
  have hz : (compute_spread_and_z sq lg ct (List.replicate n c)
      (List.replicate n d) lb lz lc thr lv tsv lo hi).z =
      List.replicate n none := by
    rw [csz_z]
    exact zSeries_const sq lg c d n lb lz
  have hraw : generate_positions (compute_spread_and_z sq lg ct
      (List.replicate n c) (List.replicate n d) lb lz lc thr lv tsv lo hi).z
      en ex = List.replicate n 0 := by
    rw [hz]
    exact posGo_replicate_none en ex 0 n
  have hcpl : (compute_spread_and_z sq lg ct (List.replicate n c)
      (List.replicate n d) lb lz lc thr lv tsv lo hi).coint_p.length = n := by
    rw [csz_coint_p, length_rolling_coint_pvalue]
    simp
  have hfil : apply_coint_regime_filter
      ((generate_positions (compute_spread_and_z sq lg ct (List.replicate n c)
        (List.replicate n d) lb lz lc thr lv tsv lo hi).z en ex).map some)
      (compute_spread_and_z sq lg ct (List.replicate n c) (List.replicate n d)
        lb lz lc thr lv tsv lo hi).coint_p thr =
      List.replicate n (some 0) := by
    rw [hraw, List.map_replicate]
    exact filter_flat _ thr n hcpl
  refine ⟨?_, ?_, ?_, ?_⟩
  · rw [csz_vol_scale]
    rw [compute_vol_scale_all_nan sq _ lv tsv lo hi hlv
      (fun i hiL => spreadSeries_const lg c d n lb i (by omega)) t (by omega)]
    rw [clip_zero_of_bounds lo hi hlo hlohi]
  · rw [hz, List.getElem?_replicate_of_lt ht]
  · rw [hfil, List.getElem?_replicate_of_lt ht]
  · rw [run_pipeline_eq, hfil]
    have hbl : (compute_spread_and_z sq lg ct (List.replicate n c)
        (List.replicate n d) lb lz lc thr lv tsv lo hi).beta.length = n := by
      rw [csz_beta, length_rolling_ols_beta _ _ _ (by simp)]
      simp
    have hvl : ((compute_spread_and_z sq lg ct (List.replicate n c)
        (List.replicate n d) lb lz lc thr lv tsv lo
        hi).vol_scale.map some).length = n := by
      rw [List.length_map, csz_vol_scale, length_compute_vol_scale, hSlen]
    rw [backtest_flat_equity lg c d n _ _ hbl hvl gl mgl fee slip mhb,
      List.getElem?_replicate_of_lt ht]

theorem C9_witness :
    (compute_spread_and_z id id (fun _ _ => none) (List.replicate 2 1)
      (List.replicate 2 1) 1 1 1 (1/20) 1 1 0 3).vol_scale[1]? = some 0 ∧
    (compute_spread_and_z id id (fun _ _ => none) (List.replicate 2 1)
      (List.replicate 2 1) 1 1 1 (1/20) 1 1 0 3).z[1]? = some none ∧
    (apply_coint_regime_filter
      ((generate_positions (compute_spread_and_z id id (fun _ _ => none)
        (List.replicate 2 1) (List.replicate 2 1) 1 1 1 (1/20) 1 1 0 3).z
        2 1).map some)
      (compute_spread_and_z id id (fun _ _ => none) (List.replicate 2 1)
        (List.replicate 2 1) 1 1 1 (1/20) 1 1 0 3).coint_p (1/20))[1]? =
      some (some 0) ∧
    (run_pipeline id id (fun _ _ => none) (List.replicate 2 1)
      (List.replicate 2 1) 1 1 1 (1/20) 1 1 0 3 2 1 1 2 0 0 3).equity[1]? =
      some 1 :=
  C9_constant_prices id id (fun _ _ => none) 1 1 2 (by norm_num) (by norm_num)
    1 1 1 (1/20) 1 (by norm_num) 1 0 3 (by norm_num) (by norm_num) 2 1 1 2 0
    0 3 1 (by norm_num)

end CryptoStatArb
